import Mathlib

/-! ## Embedded definitions (translated from the Python sources) and
specification-side definitions -/

/-- First-match lookup in an association list (Python `d[k]` / `d.get(k)`). -/
def dlookup {α : Type} (m : List (String × α)) (k : String) : Option α :=
  (m.find? (fun x => x.1 = k)).map Prod.snd

/-- Python `d[k] = v`: overwrite the first matching key in place, else append. -/
def dinsert {α : Type} (k : String) (v : α) : List (String × α) → List (String × α)
  | [] => [(k, v)]
  | (k2, v2) :: t => if k2 = k then (k2, v) :: t else (k2, v2) :: dinsert k v t

/-- Insert `a` after every element `b` with `le b a = true`: the insertion
step of a stable insertion sort. -/
def insertBy {α : Type} (le : α → α → Bool) (a : α) : List α → List α
  | [] => [a]
  | b :: bs => if le b a then b :: insertBy le a bs else a :: b :: bs

/-- Stable insertion sort by a boolean comparator (embeds Python's stable
`sorted`, whose result for a total preorder comparator agrees with any
stable sort). -/
def sortBy {α : Type} (le : α → α → Bool) (l : List α) : List α :=
  l.foldl (fun acc a => insertBy le a acc) []

/-- Python `needle in hay` on strings (contiguous substring test). -/
def substrL (needle : List Char) : List Char → Bool
  | [] => needle.isEmpty
  | c :: rest => needle.isPrefixOf (c :: rest) || substrL needle rest

/-- Python `s.replace("\\", "/")` at character level. -/
def normSlash (l : List Char) : List Char :=
  l.map fun ch => if ch = '\\' then '/' else ch

/-- Python `s.lower()` at character level (ASCII-faithful). -/
def lowerL (l : List Char) : List Char := l.map Char.toLower

/-- Embedding of `fnmatch.fnmatch(s, pat)` for patterns built from literal
characters and the wildcards `*` (any run) and `?` (any single character);
the match is anchored at both ends, so `*` is what lets a pattern reach
inside directories. -/
def globMatch : List Char → List Char → Bool
  | [], s => s.isEmpty
  | c :: ps, s =>
    if c = '*' then (s.tails).any (fun t => globMatch ps t)
    else if c = '?' then
      match s with
      | [] => false
      | _ :: s2 => globMatch ps s2
    else
      match s with
      | [] => false
      | d :: s2 => c == d && globMatch ps s2

/-- Glob patterns of `util.SECRET_BLOCKLIST_GLOBS`. -/
def SECRET_BLOCKLIST_GLOBS : List String :=
  [".env*", "*.pem", "id_rsa*", "secrets.*", "*.key", "*.p12", "*.keystore"]

/-- Credential-store directory substrings checked by `is_secret_blocklisted`. -/
def CRED_STORE_SUBSTRINGS : List String :=
  ["aws/credentials", "gcp/", "gcloud/"]

/-- Embedding of `util.is_secret_blocklisted`: slash-normalize the relative
path, test every blocklist glob against the whole path, then test the
lowercased path for credential-store substrings. -/
def is_secret_blocklisted (path : String) : Bool :=
  let p := normSlash path.toList
  (SECRET_BLOCKLIST_GLOBS.any fun pat => globMatch pat.toList p) ||
  (CRED_STORE_SUBSTRINGS.any fun k => substrL k.toList (lowerL p))

/-- The extra token characters of the redaction scanner (`"_-.+/="`). -/
def TOKEN_EXTRA : List Char := ['_', '-', '.', '+', '/', '=']

/-- Membership in the scanner's character class (`ch.isalnum() or ch in "_-.+/="`). -/
def isTokChar (c : Char) : Bool := c.isAlphanum || TOKEN_EXTRA.contains c

/-- Decides `shannon_entropy(t) ≥ 3.7` exactly over the reals.  With
`n = |t|` and character frequencies `k₁ … kₘ`, the entropy is
`log₂ n - (Σ kⱼ log₂ kⱼ) / n`, so the threshold test is equivalent to the
integer inequality `2 ^ (37 n) · Π kⱼ ^ (10 kⱼ) ≤ n ^ (10 n)` (the source
computes the same quantity in binary64 floating point; the model uses the
exact real value).  The empty run has entropy `0.0` in the source. -/
def entropyGe37 (t : List Char) : Bool :=
  if t.isEmpty then false
  else
    let n := t.length
    let fs := t.dedup.map fun c => t.count c
    decide (2 ^ (37 * n) * (fs.map fun k => k ^ (10 * k)).prod ≤ n ^ (10 * n))

/-- The flush condition of the scanner: run length at least 20 and entropy
at least the 3.7 threshold. -/
def qualifiesRun (tk : List Char) : Bool := decide (20 ≤ tk.length) && entropyGe37 tk

/-- The `flush()` closure of `find_high_entropy_tokens`: emit the span of a
pending run when it qualifies. -/
def flushSpans : Option (ℕ × List Char) → List (ℕ × ℕ)
  | none => []
  | some (st, tk) => if qualifiesRun tk then [(st, st + tk.length)] else []

/-- The character loop of `find_high_entropy_tokens`: `i` is the index of the
next character, the accumulator holds the start index and characters of the
pending run. -/
def fhetLoop : List Char → ℕ → Option (ℕ × List Char) → List (ℕ × ℕ) → List (ℕ × ℕ)
  | [], _, acc, spans => spans ++ flushSpans acc
  | ch :: cs, i, acc, spans =>
    if isTokChar ch then
      match acc with
      | none => fhetLoop cs (i + 1) (some (i, [ch])) spans
      | some (st, tk) => fhetLoop cs (i + 1) (some (st, tk ++ [ch])) spans
    else fhetLoop cs (i + 1) none (spans ++ flushSpans acc)

/-- Embedding of `util.find_high_entropy_tokens` (with the source's default
`min_len = 20`, `entropy_threshold = 3.7`). -/
def find_high_entropy_tokens (s : List Char) : List (ℕ × ℕ) := fhetLoop s 0 none []

/-- The sentinel marker spliced over qualifying runs. -/
def REDACTED : List Char := "‹REDACTED›".toList

/-- The span-splicing loop of `redact_high_entropy`: keep `s[last:a]`, emit
the sentinel, continue from `b`, and finally keep `s[last:]`. -/
def applySpans (s : List Char) : ℕ → List (ℕ × ℕ) → List Char
  | last, [] => s.drop last
  | last, (a, b) :: rest => (s.drop last).take (a - last) ++ REDACTED ++ applySpans s b rest

/-- Embedding of `util.redact_high_entropy`: returns the redacted text and
the number of replacements. -/
def redact_high_entropy (s : List Char) : List Char × ℕ :=
  let spans := find_high_entropy_tokens s
  if spans.isEmpty then (s, 0)
  else (applySpans s 0 spans, spans.length)

/-- Specification-side decomposition of a string into its maximal contiguous
runs of token characters, tagged with their start indices.  A run begins at a
token character whose predecessor (if any) is not a token character, and
extends as far as token characters go. -/
def runs (i : ℕ) (l : List Char) : List (ℕ × List Char) :=
  match l with
  | [] => []
  | ch :: cs =>
    if isTokChar ch then
      (i, ch :: cs.takeWhile isTokChar) ::
        runs (i + 1 + (cs.takeWhile isTokChar).length) (cs.dropWhile isTokChar)
    else runs (i + 1) cs
termination_by l.length
decreasing_by
· simp only [List.length_cons]
  exact Nat.lt_succ_of_le (List.dropWhile_suffix _).length_le
· simp only [List.length_cons]
  exact Nat.lt_succ_self _

/-- Specification-side redaction: substitute the sentinel for exactly the
qualifying maximal runs, keeping everything else. -/
def spec_redact (l : List Char) : List Char :=
  match l with
  | [] => []
  | ch :: cs =>
    if isTokChar ch then
      (if qualifiesRun (ch :: cs.takeWhile isTokChar) then REDACTED
       else ch :: cs.takeWhile isTokChar) ++ spec_redact (cs.dropWhile isTokChar)
    else ch :: spec_redact cs
termination_by l.length
decreasing_by
· simp only [List.length_cons]
  exact Nat.lt_succ_of_le (List.dropWhile_suffix _).length_le
· simp only [List.length_cons]
  exact Nat.lt_succ_self _

/-- The spans of the qualifying runs. -/
def spansOfRuns (rs : List (ℕ × List Char)) : List (ℕ × ℕ) :=
  rs.filterMap fun r => if qualifiesRun r.2 then some (r.1, r.1 + r.2.length) else none

/-- Embedding of `tokenize.count_tokens`, parameterized by the per-blob
counter. -/
def count_tokens (c : String → ℕ) (texts : List String) : ℕ := (texts.map c).sum

/-- The fallback per-blob estimator from `tokenize.count_tokens`. -/
def tokFB (t : String) : ℕ := max 1 (t.length / 4)

/-- Embedding of `util.FileInfo`. -/
structure FileInfo where
  path : String
  size : ℕ
  blocked_secret : Bool := false
  oversized : Bool := false
  redactions : ℕ := 0
  content : Option String := none
deriving DecidableEq

/-- The fixed system preamble `cli.ANALYSIS_SYSTEM`. -/
def ANALYSIS_SYSTEM : String :=
  "You are a senior staff-level engineer. \nUse the provided files (CXML blocks) and answer the user's request precisely and concisely. \nIf the answer may depend on omitted code, call it out explicitly."

/-- The token budget `int((1.0 - headroom) * 1_000_000)`, modelled exactly
over ℚ (for `headroom ≤ 1` Python's truncation toward zero is the floor). -/
def budget (headroom : ℚ) : ℤ := ⌊(1 - headroom) * 1000000⌋

/-- One iteration of the `cli.stat_and_filter` loop: drop a failed stat, skip
an oversized file, collect a secret-blocked path, otherwise admit a fresh
record. -/
def saf_step (file_cap : ℕ) (allow_secrets : Bool)
    (st : List (String × FileInfo) × List String) :
    String × Option ℕ → List (String × FileInfo) × List String
  | (_, none) => st
  | (rel, some size) =>
    if file_cap < size then st
    else if !allow_secrets && is_secret_blocklisted rel then (st.1, st.2 ++ [rel])
    else (dinsert rel { path := rel, size := size } st.1, st.2)

/-- Embedding of `cli.stat_and_filter`.  The input is the discovered file
list, already paired with its stat result (`none` when `os.stat` raised — the
root-relative slash-normalized path computation is taken as given).  Output:
the admitted record mapping (insertion order) and the secret-blocked paths. -/
def stat_and_filter (files : List (String × Option ℕ)) (file_cap : ℕ)
    (allow_secrets : Bool) : List (String × FileInfo) × List String :=
  files.foldl (saf_step file_cap allow_secrets) ([], [])

/-- Python `info_map[r].content or ""` (with a `dict` miss giving `""` as
well; the packer only evaluates this under its content guard). -/
def getContent (m : List (String × FileInfo)) (r : String) : String :=
  ((dlookup m r).bind FileInfo.content).getD ""

/-- The packer's admission guard `rel in info_map and info_map[rel].content is
not None`. -/
def hasContent (m : List (String × FileInfo)) (r : String) : Bool :=
  ((dlookup m r).bind FileInfo.content).isSome

/-- Embedding of `cli.fits_early` with an explicit integer budget: the texts
are the system preamble, the request, the overview, and every record content
in mapping order. -/
def fits_early_b (c : String → ℕ) (request overview : String)
    (infos : List (String × FileInfo)) (B : ℤ) : Bool :=
  decide ((count_tokens c ([ANALYSIS_SYSTEM, request, overview] ++
    infos.filterMap (fun x => x.2.content)) : ℤ) ≤ B)

/-- Embedding of `cli.fits_early`. -/
def fits_early (c : String → ℕ) (request overview : String)
    (infos : List (String × FileInfo)) (headroom : ℚ) : Bool :=
  fits_early_b c request overview infos (budget headroom)

/-- Content-length comparator used inside a priority tier (Python
`sorted(rels, key=lambda r: len(info_map[r].content or ""))`, stable). -/
def lenLe (m : List (String × FileInfo)) (a b : String) : Bool :=
  decide ((getContent m a).length ≤ (getContent m b).length)

/-- The members of priority tier `pr` (`grouped[pr]`), in order of appearance
in the candidate list. -/
def tierRels (prioritized : List (ℤ × String)) (m : List (String × FileInfo))
    (pr : ℤ) : List String :=
  (prioritized.filter (fun x => decide (x.1 = pr) && hasContent m x.2)).map Prod.snd

/-- The distinct priorities of the admissible candidates, highest first
(Python `sorted(grouped, reverse=True)`). -/
def packKeys (prioritized : List (ℤ × String)) (m : List (String × FileInfo)) : List ℤ :=
  sortBy (fun a b => decide (b ≤ a))
    ((prioritized.filter (fun x => hasContent m x.2)).map Prod.fst).dedup

/-- Embedding of `cli.budgeted_pack` with an explicit integer budget:
process tiers from highest priority down, inside a tier try candidates in
ascending content length, recount the trial set and accept exactly when it
stays within the budget. -/
def budgeted_pack_b (c : String → ℕ) (prioritized : List (ℤ × String))
    (m : List (String × FileInfo)) (B : ℤ) (request overview : String) :
    List (ℤ × String) :=
  ((packKeys prioritized m).foldl (fun st pr =>
    (sortBy (lenLe m) (tierRels prioritized m pr)).foldl (fun st2 r =>
      let trial := st2.1 ++ [getContent m r]
      if (count_tokens c trial : ℤ) ≤ B then (trial, st2.2 ++ [(pr, r)]) else st2) st)
    ([ANALYSIS_SYSTEM, request, overview], ([] : List (ℤ × String)))).2

/-- Embedding of `cli.budgeted_pack`. -/
def budgeted_pack (c : String → ℕ) (prioritized : List (ℤ × String))
    (m : List (String × FileInfo)) (headroom : ℚ) (request overview : String) :
    List (ℤ × String) :=
  budgeted_pack_b c prioritized m (budget headroom) request overview

/-- Python `os.path.basename` on a slash path. -/
def basenameL (l : List Char) : List Char :=
  (l.reverse.takeWhile (fun c => decide (c ≠ '/'))).reverse

/-- Embedding of `util.best_effort_resolve_refs_to_paths`: a reference
resolves to every admitted path whose lowercased form ends in `/` + the
reference's lowercased basename, or in the basename itself.  The source
accumulates into a `set`; the embedding returns the deduplicated list in
scan order (downstream use is order-insensitive: max-merging into a dict). -/
def best_effort_resolve_refs_to_paths (refs : List String) (all_paths : List String) :
    List String :=
  refs.foldl (fun chosen r =>
    let base := lowerL (basenameL r.toList)
    if base.isEmpty then chosen
    else all_paths.foldl (fun ch p =>
      if ('/' :: base).isSuffixOf (lowerL p.toList) || base.isSuffixOf (lowerL p.toList) then
        (if ch.contains p then ch else ch ++ [p])
      else ch) chosen) []

/-- The fallback's seed list: paths of the top `min(50, len)` ranked
candidates that are present in the record mapping. -/
def fb_seeds (seed_ranked : List (ℤ × String)) (m : List (String × FileInfo)) :
    List String :=
  ((seed_ranked.take (min 50 seed_ranked.length)).map Prod.snd).filter
    (fun r => (dlookup m r).isSome)

/-- `next((p for p, r in seed_ranked if r == s), 50)`: the priority of the
first occurrence of a seed, defaulting to 50. -/
def fb_basePr (seed_ranked : List (ℤ × String)) (s : String) : ℤ :=
  ((seed_ranked.find? (fun x => x.2 = s)).map Prod.fst).getD 50

/-- The `dep_scores` dict of `cli.fallback_mode_b`: every path resolved from a
seed's import-like references is scored `max(existing, 1, seed_priority - 5)`.
The lexical reference extraction (`util.collect_import_refs`, a fixed battery
of regular expressions) is an external-engine step and appears as the
parameter `refs`. -/
def fb_depDict (refs : String → List String) (seed_ranked : List (ℤ × String))
    (m : List (String × FileInfo)) : List (String × ℤ) :=
  (fb_seeds seed_ranked m).foldl (fun d s =>
    let txt := ((dlookup m s).bind FileInfo.content).getD ""
    let paths := best_effort_resolve_refs_to_paths (refs txt) (m.map Prod.fst)
    let base_pr := fb_basePr seed_ranked s
    paths.foldl (fun d2 p =>
      dinsert p (max (max ((dlookup d2 p).getD 0) 1) (base_pr - 5)) d2) d) []

/-- The `merged` dict comprehension `{r: p for p, r in seed_ranked}` (later
occurrences of a path overwrite earlier ones). -/
def fb_origDict (seed_ranked : List (ℤ × String)) : List (String × ℤ) :=
  seed_ranked.foldl (fun d x => dinsert x.2 x.1 d) []

/-- The dependency merge `merged[p] = max(merged.get(p, 0), sc)`. -/
def fb_merged (refs : String → List String) (seed_ranked : List (ℤ × String))
    (m : List (String × FileInfo)) : List (String × ℤ) :=
  (fb_depDict refs seed_ranked m).foldl
    (fun d x => dinsert x.1 (max ((dlookup d x.1).getD 0) x.2) d)
    (fb_origDict seed_ranked)

/-- The ranking comparator `key=lambda x: (-x[0], x[1])`: score descending,
path ascending. -/
def rankLe (x y : ℤ × String) : Bool :=
  decide (y.1 < x.1) || (decide (x.1 = y.1) && decide (x.2 ≤ y.2))

/-- Embedding of `cli.fallback_mode_b`. -/
def fallback_mode_b (refs : String → List String) (seed_ranked : List (ℤ × String))
    (m : List (String × FileInfo)) : List (ℤ × String) :=
  sortBy rankLe ((fb_merged refs seed_ranked m).map (fun x => (x.2, x.1)))

/-- ASCII whitespace stripped by Python `str.strip()` (the model covers the
ASCII fragment). -/
def isPySpace (c : Char) : Bool :=
  c = ' ' || c = '\t' || c = '\n' || c = '\r' || c = '\x0b' || c = '\x0c'

/-- Python `s.strip()`. -/
def stripWs (l : List Char) : List Char :=
  ((l.dropWhile isPySpace).reverse.dropWhile isPySpace).reverse

/-- Python `str.splitlines()` over the usual boundaries (`\n`, `\r\n`, `\r`). -/
def splitLinesPy : List Char → List Char → List (List Char)
  | cur, [] => if cur.isEmpty then [] else [cur]
  | cur, '\n' :: rest => cur :: splitLinesPy [] rest
  | cur, '\r' :: '\n' :: rest => cur :: splitLinesPy [] rest
  | cur, '\r' :: rest => cur :: splitLinesPy [] rest
  | cur, c :: rest => splitLinesPy (cur ++ [c]) rest

/-- Digit grammar of Python `int()`: `digit+ ('_' digit+)*`. -/
def digitsTail : List Char → Bool
  | [] => true
  | '_' :: rest =>
    match rest with
    | [] => false
    | c :: r => c.isDigit && digitsTail r
  | c :: rest => c.isDigit && digitsTail rest

/-- Whether a character list is a valid unsigned Python integer literal body. -/
def digitsOk : List Char → Bool
  | [] => false
  | c :: rest => c.isDigit && digitsTail rest

/-- Numeric value of a digit string, ignoring `_` group separators. -/
def digitsVal (l : List Char) : ℕ :=
  (l.filter (fun c => decide (c ≠ '_'))).foldl
    (fun n c => 10 * n + (c.toNat - '0'.toNat)) 0

/-- Embedding of Python `int(s)` on the ASCII fragment: strip whitespace,
optional sign, digits with single `_` separators. -/
def pyParseInt (s : List Char) : Option ℤ :=
  let t := stripWs s
  match t with
  | '+' :: rest => if digitsOk rest then some (digitsVal rest : ℤ) else none
  | '-' :: rest => if digitsOk rest then some (-(digitsVal rest : ℤ)) else none
  | _ => if digitsOk t then some (digitsVal t : ℤ) else none

/-- Split at the first occurrence of `sep`. -/
def splitFirst (sep : Char) : List Char → Option (List Char × List Char)
  | [] => none
  | c :: rest =>
    if c = sep then some ([], rest)
    else (splitFirst sep rest).map (fun x => (c :: x.1, x.2))

/-- Embedding of `util.parse_ranked_lines`: for each stripped non-empty line,
split on the first tab (or, failing that, the first space), parse the
priority (malformed lines are dropped silently), clamp it into `[1, 100]`,
and finally sort by priority descending, path ascending. -/
def parse_ranked_lines (text : String) : List (ℤ × String) :=
  sortBy rankLe ((splitLinesPy [] text.toList).foldl (fun out line =>
    let ls := stripWs line
    if ls.isEmpty then out
    else
      match (if ls.contains '\t' then splitFirst '\t' ls
             else if ls.contains ' ' then splitFirst ' ' ls else none) with
      | none => out
      | some x =>
        match pyParseInt x.1 with
        | none => out
        | some pr => out ++ [(max 1 (min 100 pr), String.mk (stripWs x.2))]) [])

/-- Embedding of `selector.stage1_select`: the Gemini client is external, so
it appears as its readiness flag and the raw text it returns (`generate`
returns `""` when the call errors out).  An unready client short-circuits to
the empty list. -/
def stage1_select (ready : Bool) (gen : String) : List (ℤ × String) :=
  if ready then parse_ranked_lines gen else []

/-- Embedding of `selector.stage2_select` (same external-client shape as
stage 1; the two stages differ only in their prompt text). -/
def stage2_select (ready : Bool) (gen : String) : List (ℤ × String) :=
  if ready then parse_ranked_lines gen else []

/-- Python `pat.rstrip("*/")`. -/
def rstripGlob (l : List Char) : List Char :=
  (l.reverse.dropWhile (fun c => c = '*' || c = '/')).reverse

/-- The qualification test of the expansion loop:
`rel.startswith(pat_norm.rstrip("*/")) or fnmatch(rel, pat_norm)`, with the
glob matcher as a parameter `gm` (the source delegates to `fnmatch`). -/
def qualifiesPat (gm : String → String → Bool) (pat rel : String) : Bool :=
  (rstripGlob (normSlash pat.toList)).isPrefixOf rel.toList ||
    gm (String.mk (normSlash pat.toList)) rel

/-- The pattern loop of the stage-1 expansion in `cli.main`: for each pattern
append every qualifying discovered path, and stop after the first pattern
that brings the accumulated length to `max_stage1` or beyond. -/
def expandLoop (gm : String → String → Bool) (all_rels : List String) (maxS1 : ℕ) :
    List (ℤ × String) → List String → List String
  | [], acc => acc
  | (_, pat) :: rest, acc =>
    let acc2 := acc ++ all_rels.filter (fun rel => qualifiesPat gm pat rel)
    if maxS1 ≤ acc2.length then acc2 else expandLoop gm all_rels maxS1 rest acc2

/-- Stage-1 expansion (`cli.main`, step 4): run the pattern loop over the
first `max_stage1` ranked patterns; if nothing matched, fall back to the full
discovered list truncated to `max_stage2`. -/
def expand_stage1 (gm : String → String → Bool) (st1 : List (ℤ × String))
    (all_rels : List String) (maxS1 maxS2 : ℕ) : List String :=
  let e := expandLoop gm all_rels maxS1 (st1.take maxS1) []
  if e.isEmpty then all_rels.take maxS2 else e

/-- The instantiation of the `gm` parameter by the embedded `fnmatch`. -/
def globMatchS (pat s : String) : Bool := globMatch pat.toList s.toList

/-- Stage-2 glue in `cli.main`: an empty stage-2 ranking is replaced by the
uniform default priority 50 over the (truncated) candidate set. -/
def selection_prioritized (st2 : List (ℤ × String)) (expanded : List String)
    (maxS2 : ℕ) : List (ℤ × String) :=
  if st2.isEmpty then (expanded.take maxS2).map (fun rel => ((50 : ℤ), rel)) else st2

/-- The selection-and-packing pipeline of `cli.main` (steps "Early-fit check"
through "Assembly & budgeting"), with an explicit integer budget.  The
external stages appear as data: `st1` is the stage-1 result, `st2f` maps the
candidate list sent to stage 2 to its result, `refs` is the lexical
reference extractor of the fallback.  Under early fit the whole mapping is
bundled at priority 100 in mapping order and no selection logic runs. -/
def pipeline_b (c : String → ℕ) (gm : String → String → Bool)
    (st1 : List (ℤ × String)) (st2f : List String → List (ℤ × String))
    (refs : String → List String) (request overview : String)
    (all_rels : List String) (m : List (String × FileInfo)) (B : ℤ)
    (maxS1 maxS2 : ℕ) : List (ℤ × String) :=
  if fits_early_b c request overview m B then m.map (fun x => ((100 : ℤ), x.1))
  else
    let expanded := expand_stage1 gm st1 all_rels maxS1 maxS2
    let st2 := st2f (expanded.take maxS2)
    let prioritized := selection_prioritized st2 expanded maxS2
    let packed := budgeted_pack_b c prioritized m B request overview
    if packed.length < prioritized.length then
      budgeted_pack_b c (fallback_mode_b refs prioritized m) m B request overview
    else packed

/-- The pipeline with the budget computed from the headroom. -/
def pipeline (c : String → ℕ) (gm : String → String → Bool)
    (st1 : List (ℤ × String)) (st2f : List String → List (ℤ × String))
    (refs : String → List String) (request overview : String)
    (all_rels : List String) (m : List (String × FileInfo)) (headroom : ℚ)
    (maxS1 maxS2 : ℕ) : List (ℤ × String) :=
  pipeline_b c gm st1 st2f refs request overview all_rels m (budget headroom) maxS1 maxS2

/-- The processing order stated by the spec: priority tiers from highest to
lowest, and inside a tier the members in ascending content length (stable on
ties). -/
def spec_packOrder (prioritized : List (ℤ × String)) (m : List (String × FileInfo)) :
    List (ℤ × String) :=
  (packKeys prioritized m).flatMap
    (fun pr => (sortBy (lenLe m) (tierRels prioritized m pr)).map (fun r => (pr, r)))

/-- A single greedy forward pass (the spec's acceptance rule): keep a running
text set, form the trial set with the candidate's content, accept exactly
when the recounted total stays within the budget; a skipped candidate is
never retried.  Returns the final running set and the accepted candidates. -/
def spec_greedyAux (c : String → ℕ) (m : List (String × FileInfo)) (B : ℤ) :
    List String → List (ℤ × String) → List String × List (ℤ × String)
  | texts, [] => (texts, [])
  | texts, x :: rest =>
    if (count_tokens c (texts ++ [getContent m x.2]) : ℤ) ≤ B then
      ((spec_greedyAux c m B (texts ++ [getContent m x.2]) rest).1,
        x :: (spec_greedyAux c m B (texts ++ [getContent m x.2]) rest).2)
    else spec_greedyAux c m B texts rest

/-- The accepted candidates of the greedy pass. -/
def spec_greedy (c : String → ℕ) (m : List (String × FileInfo)) (B : ℤ)
    (texts : List String) (order : List (ℤ × String)) : List (ℤ × String) :=
  (spec_greedyAux c m B texts order).2

/-- The admission predicate preserved by every entry of the admitted record
mapping. -/
def admitted (cap : ℕ) (allow : Bool) (rel : String) (fi : FileInfo) : Prop :=
  fi.size ≤ cap ∧ (allow = false → is_secret_blocklisted rel = false) ∧
    fi.oversized = false ∧ fi.blocked_secret = false ∧ fi.content = none ∧ fi.path = rel

/-- Record mapping of the headroom counterexample: one 40-character
high-priority file and two 4-character low-priority files. -/
def cex6_m : List (String × FileInfo) :=
  [("big",
    { path := "big", size := 40,
      content := some "aaaaaaaaaaaaaaaaaaaaaaaaaaaaaaaaaaaaaaaa" }),
   ("s1", { path := "s1", size := 4, content := some "aaaa" }),
   ("s2", { path := "s2", size := 4, content := some "aaaa" })]

/-- Candidate list of the headroom counterexample. -/
def cex6_p : List (ℤ × String) := [(100, "big"), (50, "s1"), (50, "s2")]

/-- Specification-side expansion with a remaining-budget argument: each
pattern contributes the full filter of the discovered list; once a pattern
exhausts the remaining budget the loop stops (that pattern still contributes
wholly). -/
def spec_expand (gm : String → String → Bool) (all_rels : List String) :
    ℕ → List String → List String
  | _, [] => []
  | bgt, pat :: rest =>
    let ms := all_rels.filter (fun rel => qualifiesPat gm pat rel)
    if bgt ≤ ms.length then ms
    else ms ++ spec_expand gm all_rels (bgt - ms.length) rest

/-- Record mapping of the early-fit witness. -/
def cex1_m : List (String × FileInfo) :=
  [("a.py", { path := "a.py", size := 1, content := some "x" })]

/-- The dependency contributions to a path `p`: one value `max 1 (basePr - 5)`
per seed whose resolved reference set contains `p`, in seed order. -/
def fb_depContribs (refs : String → List String) (sr : List (ℤ × String))
    (m : List (String × FileInfo)) (p : String) : List ℤ :=
  (fb_seeds sr m).filterMap (fun s =>
    if p ∈ best_effort_resolve_refs_to_paths
        (refs (((dlookup m s).bind FileInfo.content).getD "")) (m.map Prod.fst)
    then some (max 1 (fb_basePr sr s - 5)) else none)

/-- Left fold of `max` over a list of scores, `none` on the empty list. -/
def listMax? (l : List ℤ) : Option ℤ :=
  l.foldl (fun o a => some (max (o.getD a) a)) none

/-- Record mapping of the duplicate-path counterexample. -/
def cex5_m : List (String × FileInfo) :=
  [("a", { path := "a", size := 1, content := some "x" })]

/-- Concrete fallback run for the C8 witness. -/
def cex8_m : List (String × FileInfo) :=
  [("a", { path := "a", size := 11, content := some "import b.py" }),
   ("lib/b.py", { path := "lib/b.py", size := 1, content := some "x" })]

/-- A reference extractor standing for the import-regex battery on the
witness corpus. -/
def cex8_refs (txt : String) : List String :=
  if txt = "import b.py" then ["b.py"] else []

/-- Ranked candidates for the C8 witness. -/
def cex8_sr : List (ℤ × String) := [(90, "a"), (70, "lib/b.py")]

/-- The real-valued per-character Shannon entropy of `util.shannon_entropy`:
`-Σ p·log₂ p` over the character frequencies (0 on the empty string). -/
noncomputable def shannonEntropy (t : List Char) : ℝ :=
  if t.isEmpty then 0
  else -((t.dedup.map (fun c =>
    ((t.count c : ℝ) / t.length) * Real.logb 2 ((t.count c : ℝ) / t.length))).sum)

/-! ## Theorems -/

theorem globMatch_nil_right (s : List Char) : globMatch [] s = s.isEmpty := by
  simp [globMatch]

/-- A wildcard-free pattern matches exactly itself. -/
theorem globMatch_lit (lit : List Char) (hs : '*' ∉ lit) (hq : '?' ∉ lit) :
    ∀ s, globMatch lit s = decide (lit = s) := by
  induction lit with
  | nil =>
    intro s
    cases s <;> simp [globMatch, List.isEmpty]
  | cons c ps ih =>
    intro s
    have hc1 : ¬ c = '*' := fun h => hs (h ▸ List.mem_cons_self c ps)
    have hc2 : ¬ c = '?' := fun h => hq (h ▸ List.mem_cons_self c ps)
    have hs2 : '*' ∉ ps := fun h => hs (List.mem_cons_of_mem _ h)
    have hq2 : '?' ∉ ps := fun h => hq (List.mem_cons_of_mem _ h)
    cases s with
    | nil => simp [globMatch, hc1, hc2]
    | cons d s2 =>
      simp only [globMatch, if_neg hc1, if_neg hc2, ih hs2 hq2]
      by_cases hcd : c = d <;> by_cases hps : ps = s2 <;> simp [hcd, hps]

/-- A pattern of the form `lit*` (no other wildcards) matches exactly the
strings having `lit` as a prefix. -/
theorem globMatch_lit_star (lit : List Char) (hs : '*' ∉ lit) (hq : '?' ∉ lit) :
    ∀ s, globMatch (lit ++ ['*']) s = lit.isPrefixOf s := by
  induction lit with
  | nil =>
    intro s
    have h1 : globMatch ['*'] s = (s.tails).any (fun t => globMatch [] t) := by
      simp [globMatch]
    rw [List.nil_append, h1]
    have h2 : (s.tails).any (fun t => globMatch [] t) = true :=
      List.any_eq_true.2 ⟨[], (List.mem_tails _ _).2 List.nil_suffix,
        by simp [globMatch, List.isEmpty]⟩
    rw [h2]
    cases s <;> rfl
  | cons c ps ih =>
    intro s
    have hc1 : ¬ c = '*' := fun h => hs (h ▸ List.mem_cons_self c ps)
    have hc2 : ¬ c = '?' := fun h => hq (h ▸ List.mem_cons_self c ps)
    have hs2 : '*' ∉ ps := fun h => hs (List.mem_cons_of_mem _ h)
    have hq2 : '?' ∉ ps := fun h => hq (List.mem_cons_of_mem _ h)
    cases s with
    | nil => simp [globMatch, hc1, hc2, List.isPrefixOf]
    | cons d s2 =>
      simp only [List.cons_append, globMatch, if_neg hc1, if_neg hc2,
        List.isPrefixOf]
      congr 1
      exact ih hs2 hq2 s2

/-- A pattern of the form `*lit` (no other wildcards) matches exactly the
strings having `lit` as a suffix. -/
theorem globMatch_star_lit (lit : List Char) (hs : '*' ∉ lit) (hq : '?' ∉ lit)
    (s : List Char) : globMatch ('*' :: lit) s = decide (lit <:+ s) := by
  have h1 : globMatch ('*' :: lit) s = (s.tails).any (fun t => globMatch lit t) := by
    simp [globMatch]
  rw [h1]
  by_cases h : lit <:+ s
  · have hmem : lit ∈ s.tails := (List.mem_tails _ _).2 h
    simp only [decide_eq_true h]
    exact List.any_eq_true.2 ⟨lit, hmem, by rw [globMatch_lit lit hs hq]; simp⟩
  · simp only [decide_eq_false h, List.any_eq_false]
    intro t ht
    rw [globMatch_lit lit hs hq]
    simp only [decide_eq_true_eq]
    intro he
    exact h (he ▸ (List.mem_tails _ _).1 ht)

theorem suffix_getLast? {l₁ l₂ : List Char} (h : l₁ <:+ l₂) (hne : l₁ ≠ []) :
    l₂.getLast? = l₁.getLast? := by
  obtain ⟨q, rfl⟩ := h
  rw [List.getLast?_append]
  cases hl : l₁.getLast? with
  | none => exact absurd (List.getLast?_eq_none_iff.1 hl) hne
  | some a => rfl

theorem not_suffix_of_getLast_ne {l₁ l₂ : List Char} (a b : Char)
    (h1 : l₁.getLast? = some a) (h2 : l₂.getLast? = some b) (hab : a ≠ b) :
    ¬ (l₁ <:+ l₂) := by
  intro hsuf
  have hne : l₁ ≠ [] := by
    intro h
    rw [h] at h1
    cases h1
  have := suffix_getLast? hsuf hne
  rw [h1, h2] at this
  exact hab (Option.some.inj this).symm

theorem normSlash_append (a b : List Char) :
    normSlash (a ++ b) = normSlash a ++ normSlash b := by
  simp [normSlash]

theorem lowerL_append (a b : List Char) :
    lowerL (a ++ b) = lowerL a ++ lowerL b := by
  simp [lowerL]

/-- Any path placed inside a subdirectory and ending in the file name `.env`
is admitted by the blocklist, provided the path does not itself start with
one of the anchored blocklist literals and contains no credential-store
substring. -/
theorem env_in_subdir_not_blocklisted (sub : List Char)
    (h1 : (".env".toList).isPrefixOf (normSlash sub ++ "/.env".toList) = false)
    (h2 : ("id_rsa".toList).isPrefixOf (normSlash sub ++ "/.env".toList) = false)
    (h3 : ("secrets.".toList).isPrefixOf (normSlash sub ++ "/.env".toList) = false)
    (h4 : substrL "aws/credentials".toList (lowerL (normSlash sub ++ "/.env".toList)) = false)
    (h5 : substrL "gcp/".toList (lowerL (normSlash sub ++ "/.env".toList)) = false)
    (h6 : substrL "gcloud/".toList (lowerL (normSlash sub ++ "/.env".toList)) = false) :
    is_secret_blocklisted (String.mk (sub ++ "/.env".toList)) = false := by
  have hmk : (String.mk (sub ++ "/.env".toList)).toList = sub ++ "/.env".toList := rfl
  have hnorm : normSlash (sub ++ "/.env".toList) = normSlash sub ++ "/.env".toList := by
    rw [normSlash_append]
    rfl
  have hplast : (normSlash sub ++ "/.env".toList).getLast? = some 'v' := by
    rw [List.getLast?_append]
    rfl
  have g1 : globMatch ".env*".toList (normSlash sub ++ "/.env".toList) = false := by
    have he : (".env*".toList) = ".env".toList ++ ['*'] := rfl
    rw [he, globMatch_lit_star _ (by decide) (by decide)]
    exact h1
  have g2 : globMatch "*.pem".toList (normSlash sub ++ "/.env".toList) = false := by
    have he : ("*.pem".toList) = '*' :: ".pem".toList := rfl
    rw [he, globMatch_star_lit _ (by decide) (by decide)]
    simp only [decide_eq_false_iff_not]
    exact not_suffix_of_getLast_ne 'm' 'v' rfl hplast (by decide)
  have g3 : globMatch "id_rsa*".toList (normSlash sub ++ "/.env".toList) = false := by
    have he : ("id_rsa*".toList) = "id_rsa".toList ++ ['*'] := rfl
    rw [he, globMatch_lit_star _ (by decide) (by decide)]
    exact h2
  have g4 : globMatch "secrets.*".toList (normSlash sub ++ "/.env".toList) = false := by
    have he : ("secrets.*".toList) = "secrets.".toList ++ ['*'] := rfl
    rw [he, globMatch_lit_star _ (by decide) (by decide)]
    exact h3
  have g5 : globMatch "*.key".toList (normSlash sub ++ "/.env".toList) = false := by
    have he : ("*.key".toList) = '*' :: ".key".toList := rfl
    rw [he, globMatch_star_lit _ (by decide) (by decide)]
    simp only [decide_eq_false_iff_not]
    exact not_suffix_of_getLast_ne 'y' 'v' rfl hplast (by decide)
  have g6 : globMatch "*.p12".toList (normSlash sub ++ "/.env".toList) = false := by
    have he : ("*.p12".toList) = '*' :: ".p12".toList := rfl
    rw [he, globMatch_star_lit _ (by decide) (by decide)]
    simp only [decide_eq_false_iff_not]
    exact not_suffix_of_getLast_ne '2' 'v' rfl hplast (by decide)
  have g7 : globMatch "*.keystore".toList (normSlash sub ++ "/.env".toList) = false := by
    have he : ("*.keystore".toList) = '*' :: ".keystore".toList := rfl
    rw [he, globMatch_star_lit _ (by decide) (by decide)]
    simp only [decide_eq_false_iff_not]
    exact not_suffix_of_getLast_ne 'e' 'v' rfl hplast (by decide)
  show ((SECRET_BLOCKLIST_GLOBS.any fun pat =>
      globMatch pat.toList (normSlash (String.mk (sub ++ "/.env".toList)).toList)) ||
    (CRED_STORE_SUBSTRINGS.any fun k =>
      substrL k.toList (lowerL (normSlash (String.mk (sub ++ "/.env".toList)).toList)))) = false
  rw [hmk, hnorm]
  simp only [SECRET_BLOCKLIST_GLOBS, CRED_STORE_SUBSTRINGS, List.any_cons, List.any_nil,
    g1, g2, g3, g4, g5, g6, g7, h4, h5, h6, Bool.or_false, Bool.false_or, Bool.or_self]

/-- Any path ending in the extension `.pem` is blocked, at any directory
depth. -/
theorem pem_blocked_any_depth (s : List Char) :
    is_secret_blocklisted (String.mk (s ++ ".pem".toList)) = true := by
  have hmk : (String.mk (s ++ ".pem".toList)).toList = s ++ ".pem".toList := rfl
  have hnorm : normSlash (s ++ ".pem".toList) = normSlash s ++ ".pem".toList := by
    rw [normSlash_append]
    rfl
  have g2 : globMatch "*.pem".toList (normSlash s ++ ".pem".toList) = true := by
    have he : ("*.pem".toList) = '*' :: ".pem".toList := rfl
    rw [he, globMatch_star_lit _ (by decide) (by decide)]
    exact decide_eq_true (List.suffix_append (normSlash s) ".pem".toList)
  show ((SECRET_BLOCKLIST_GLOBS.any fun pat =>
      globMatch pat.toList (normSlash (String.mk (s ++ ".pem".toList)).toList)) ||
    (CRED_STORE_SUBSTRINGS.any fun k =>
      substrL k.toList (lowerL (normSlash (String.mk (s ++ ".pem".toList)).toList)))) = true
  rw [hmk, hnorm]
  have : (SECRET_BLOCKLIST_GLOBS.any fun pat =>
      globMatch pat.toList (normSlash s ++ ".pem".toList)) = true := by
    simp only [SECRET_BLOCKLIST_GLOBS, List.any_cons, g2, Bool.true_or, Bool.or_true]
  rw [this, Bool.true_or]

/-- Claim C10 (amended): anchored blocklist patterns only match when the whole
slash-normalized path matches, so a `.env` file inside a subdirectory is
admitted provided the full path does not itself begin with one of the anchored
literals (`.env`, `id_rsa`, `secrets.`) and contains no credential-store
substring (`aws/credentials`, `gcp/`, `gcloud/`); extension patterns such as
`*.pem` match at any depth. -/
theorem secret_blocklist_subdir_scope :
    (∀ sub : List Char,
      (".env".toList).isPrefixOf (normSlash sub ++ "/.env".toList) = false →
      ("id_rsa".toList).isPrefixOf (normSlash sub ++ "/.env".toList) = false →
      ("secrets.".toList).isPrefixOf (normSlash sub ++ "/.env".toList) = false →
      substrL "aws/credentials".toList (lowerL (normSlash sub ++ "/.env".toList)) = false →
      substrL "gcp/".toList (lowerL (normSlash sub ++ "/.env".toList)) = false →
      substrL "gcloud/".toList (lowerL (normSlash sub ++ "/.env".toList)) = false →
      is_secret_blocklisted (String.mk (sub ++ "/.env".toList)) = false)
    ∧ (∀ s : List Char, is_secret_blocklisted (String.mk (s ++ ".pem".toList)) = true) := by
  constructor
  · intro sub h1 h2 h3 h4 h5 h6
    exact env_in_subdir_not_blocklisted sub h1 h2 h3 h4 h5 h6
  · exact pem_blocked_any_depth

/-- Claim C10 counterexample: the claim as stated fails — `.envdir/.env` is
matched by the anchored glob `.env*` itself, and `gcp/.env` is caught by the
credential-store substring check, so both subdirectory `.env` files ARE
blocklisted. -/
theorem secret_blocklist_subdir_counterexample :
    is_secret_blocklisted ".envdir/.env" = true ∧ is_secret_blocklisted "gcp/.env" = true := by
  constructor <;> decide

/-- Witness for Claim C10's amended theorem at the claim's own example
`config/.env` and at a nested `.pem` path. -/
theorem secret_blocklist_subdir_witness :
    is_secret_blocklisted "config/.env" = false ∧ is_secret_blocklisted "deep/dir/cert.pem" = true := by
  have h := secret_blocklist_subdir_scope
  exact ⟨h.1 "config".toList (by decide) (by decide) (by decide) (by decide) (by decide)
    (by decide), h.2 "deep/dir/cert".toList⟩

theorem flushSpans_some (st : ℕ) (tk : List Char) :
    flushSpans (some (st, tk)) = spansOfRuns [(st, tk)] := by
  simp [flushSpans, spansOfRuns, List.filterMap_cons]
  by_cases h : qualifiesRun tk <;> simp [h]

theorem spansOfRuns_cons (r : ℕ × List Char) (rs : List (ℕ × List Char)) :
    spansOfRuns (r :: rs) = flushSpans (some r) ++ spansOfRuns rs := by
  obtain ⟨st, tk⟩ := r
  simp only [spansOfRuns, List.filterMap_cons, flushSpans]
  by_cases q : qualifiesRun tk
  · simp [q]
  · simp [q]

/-- The scanner loop, related to the specification-side run decomposition:
with no pending run it emits exactly the qualifying spans of `runs`, and with
a pending run `(st, tk)` the pending run is first extended by the maximal
token-character prefix of the remaining input. -/
theorem fhet_invariants : ∀ (n : ℕ) (cs : List Char), cs.length ≤ n →
    ((∀ i spans, fhetLoop cs i none spans = spans ++ spansOfRuns (runs i cs)) ∧
     (∀ i st tk spans, fhetLoop cs i (some (st, tk)) spans =
       spans ++ spansOfRuns ((st, tk ++ cs.takeWhile isTokChar) ::
         runs (i + (cs.takeWhile isTokChar).length) (cs.dropWhile isTokChar)))) := by
  intro n
  induction n with
  | zero =>
    intro cs hcs
    obtain rfl : cs = [] := List.length_eq_zero.1 (Nat.le_zero.1 hcs)
    refine ⟨fun i spans => ?_, fun i st tk spans => ?_⟩
    · simp [fhetLoop, runs, spansOfRuns, flushSpans]
    · simp [fhetLoop, runs, flushSpans_some, spansOfRuns]
  | succ n ih =>
    intro cs hcs
    cases cs with
    | nil =>
      refine ⟨fun i spans => ?_, fun i st tk spans => ?_⟩
      · simp [fhetLoop, runs, spansOfRuns, flushSpans]
      · simp [fhetLoop, runs, flushSpans_some, spansOfRuns]
    | cons ch cs2 =>
      have hcs2 : cs2.length ≤ n := by
        simp only [List.length_cons] at hcs
        omega
      refine ⟨fun i spans => ?_, fun i st tk spans => ?_⟩
      · by_cases h : isTokChar ch
        · have hstep : fhetLoop (ch :: cs2) i none spans =
              fhetLoop cs2 (i + 1) (some (i, [ch])) spans := by
            simp [fhetLoop, h]
          rw [hstep, (ih cs2 hcs2).2 (i + 1) i [ch] spans]
          have hruns : runs i (ch :: cs2) =
              (i, ch :: cs2.takeWhile isTokChar) ::
                runs (i + 1 + (cs2.takeWhile isTokChar).length) (cs2.dropWhile isTokChar) := by
            rw [runs]
            simp [h]
          rw [hruns]
          simp [List.singleton_append, Nat.add_assoc]
        · have hstep : fhetLoop (ch :: cs2) i none spans =
              fhetLoop cs2 (i + 1) none (spans ++ flushSpans none) := by
            simp [fhetLoop, h]
          rw [hstep, (ih cs2 hcs2).1 (i + 1)]
          have hruns : runs i (ch :: cs2) = runs (i + 1) cs2 := by
            rw [runs]
            simp [h]
          rw [hruns]
          simp [flushSpans]
      · by_cases h : isTokChar ch
        · have hstep : fhetLoop (ch :: cs2) i (some (st, tk)) spans =
              fhetLoop cs2 (i + 1) (some (st, tk ++ [ch])) spans := by
            simp [fhetLoop, h]
          rw [hstep, (ih cs2 hcs2).2 (i + 1) st (tk ++ [ch]) spans]
          have htw : (ch :: cs2).takeWhile isTokChar = ch :: cs2.takeWhile isTokChar := by
            simp [List.takeWhile_cons, h]
          have hdw : (ch :: cs2).dropWhile isTokChar = cs2.dropWhile isTokChar := by
            simp [List.dropWhile_cons, h]
          rw [htw, hdw]
          have harith : i + 1 + (cs2.takeWhile isTokChar).length =
              i + (ch :: cs2.takeWhile isTokChar).length := by
            simp only [List.length_cons]
            omega
          rw [harith]
          simp [List.append_assoc, List.singleton_append]
        · have hstep : fhetLoop (ch :: cs2) i (some (st, tk)) spans =
              fhetLoop cs2 (i + 1) none (spans ++ flushSpans (some (st, tk))) := by
            simp [fhetLoop, h]
          rw [hstep, (ih cs2 hcs2).1 (i + 1)]
          have htw : (ch :: cs2).takeWhile isTokChar = [] := by
            simp [List.takeWhile_cons, h]
          have hdw : (ch :: cs2).dropWhile isTokChar = ch :: cs2 := by
            simp [List.dropWhile_cons, h]
          rw [htw, hdw]
          have hruns : runs i (ch :: cs2) = runs (i + 1) cs2 := by
            rw [runs]
            simp [h]
          simp only [List.length_nil, Nat.add_zero, List.append_nil, spansOfRuns_cons, hruns,
            List.append_assoc]

/-- The scanner finds exactly the spans of the qualifying maximal runs. -/
theorem find_high_entropy_tokens_eq (s : List Char) :
    find_high_entropy_tokens s = spansOfRuns (runs 0 s) := by
  have h := (fhet_invariants s.length s le_rfl).1 0 []
  simpa [find_high_entropy_tokens] using h

/-- Every run emitted by `runs i` starts at or after index `i`. -/
theorem runs_start_le : ∀ (n : ℕ) (cs : List Char), cs.length ≤ n →
    ∀ i, ∀ r ∈ runs i cs, i ≤ r.1 := by
  intro n
  induction n with
  | zero =>
    intro cs hcs
    obtain rfl : cs = [] := List.length_eq_zero.1 (Nat.le_zero.1 hcs)
    intro i r hr
    simp [runs] at hr
  | succ n ih =>
    intro cs hcs
    cases cs with
    | nil =>
      intro i r hr
      simp [runs] at hr
    | cons ch cs2 =>
      have hcs2 : cs2.length ≤ n := by
        simp only [List.length_cons] at hcs
        omega
      intro i r hr
      by_cases h : isTokChar ch
      · rw [runs] at hr
        simp only [if_pos h, List.mem_cons] at hr
        rcases hr with hr | hr
        · subst hr
          exact le_rfl
        · have hdw : (cs2.dropWhile isTokChar).length ≤ n :=
            le_trans (List.dropWhile_suffix _).length_le hcs2
          have := ih (cs2.dropWhile isTokChar) hdw
            (i + 1 + (cs2.takeWhile isTokChar).length) r hr
          omega
      · rw [runs] at hr
        simp only [if_neg h] at hr
        have := ih cs2 hcs2 (i + 1) r hr
        omega

/-- Every qualifying span of `runs i` starts at or after index `i`. -/
theorem spansOfRuns_start_le {cs : List Char} {i : ℕ} {sp : ℕ × ℕ}
    (hsp : sp ∈ spansOfRuns (runs i cs)) : i ≤ sp.1 := by
  obtain ⟨r, hr, he⟩ := List.mem_filterMap.1 hsp
  by_cases q : qualifiesRun r.2
  · rw [if_pos q] at he
    have h1 := runs_start_le cs.length cs le_rfl i r hr
    cases he
    exact h1
  · rw [if_neg q] at he
    cases he

/-- Splitting off an untouched block of `k` characters at position `last`
from the splicing loop, provided every remaining span starts at or after
`last + k`. -/
theorem applySpans_shift (s : List Char) (last k : ℕ) (spans : List (ℕ × ℕ))
    (hstart : ∀ sp ∈ spans, last + k ≤ sp.1) :
    applySpans s last spans = (s.drop last).take k ++ applySpans s (last + k) spans := by
  cases spans with
  | nil =>
    show s.drop last = (s.drop last).take k ++ s.drop (last + k)
    rw [← List.drop_drop, ← List.take_append_drop k (s.drop last)]
    simp [List.take_take, List.drop_drop]
  | cons sp rest =>
    obtain ⟨a, b⟩ := sp
    have ha : last + k ≤ a := hstart (a, b) (List.mem_cons_self _ _)
    show (s.drop last).take (a - last) ++ REDACTED ++ applySpans s b rest =
      (s.drop last).take k ++ ((s.drop (last + k)).take (a - (last + k)) ++ REDACTED ++
        applySpans s b rest)
    have hsplit : (s.drop last).take (a - last) =
        (s.drop last).take k ++ (s.drop (last + k)).take (a - (last + k)) := by
      have h1 : a - last = k + (a - (last + k)) := by omega
      rw [h1, List.take_add, List.drop_drop]
    rw [hsplit]
    simp [List.append_assoc]

/-- The splicing loop applied to the qualifying spans reproduces the
specification-side redaction. -/
theorem applySpans_runs : ∀ (n : ℕ) (cs : List Char), cs.length ≤ n →
    ∀ (i : ℕ) (s : List Char), s.drop i = cs →
    applySpans s i (spansOfRuns (runs i cs)) = spec_redact cs := by
  intro n
  induction n with
  | zero =>
    intro cs hcs
    obtain rfl : cs = [] := List.length_eq_zero.1 (Nat.le_zero.1 hcs)
    intro i s hs
    simp [runs, spansOfRuns, applySpans, spec_redact, hs]
  | succ n ih =>
    intro cs hcs
    cases cs with
    | nil =>
      intro i s hs
      simp [runs, spansOfRuns, applySpans, spec_redact, hs]
    | cons ch cs2 =>
      have hcs2 : cs2.length ≤ n := by
        simp only [List.length_cons] at hcs
        omega
      intro i s hs
      by_cases h : isTokChar ch
      · have hdwlen : (cs2.dropWhile isTokChar).length ≤ n :=
          le_trans (List.dropWhile_suffix _).length_le hcs2
        have hsplit : (ch :: cs2.takeWhile isTokChar) ++ cs2.dropWhile isTokChar = ch :: cs2 := by
          simp [List.takeWhile_append_dropWhile]
        have hdrop2 : s.drop (i + (ch :: cs2.takeWhile isTokChar).length) =
            cs2.dropWhile isTokChar := by
          rw [← List.drop_drop, hs, ← hsplit, List.drop_left]
        have hlen2 : (ch :: cs2.takeWhile isTokChar).length ≤ (s.drop i).length := by
          rw [hs, ← hsplit]
          simp only [List.length_cons, List.length_append]
          omega
        have hruns : runs i (ch :: cs2) =
            (i, ch :: cs2.takeWhile isTokChar) ::
              runs (i + 1 + (cs2.takeWhile isTokChar).length) (cs2.dropWhile isTokChar) := by
          rw [runs]
          simp [h]
        have hidx : i + 1 + (cs2.takeWhile isTokChar).length =
            i + (ch :: cs2.takeWhile isTokChar).length := by
          simp only [List.length_cons]
          omega
        have hspec : spec_redact (ch :: cs2) =
            (if qualifiesRun (ch :: cs2.takeWhile isTokChar) then REDACTED
             else ch :: cs2.takeWhile isTokChar) ++ spec_redact (cs2.dropWhile isTokChar) := by
          rw [spec_redact]
          simp [h]
        have ihdw := ih (cs2.dropWhile isTokChar) hdwlen
          (i + (ch :: cs2.takeWhile isTokChar).length) s hdrop2
        rw [hruns, spansOfRuns_cons, hspec]
        by_cases q : qualifiesRun (ch :: cs2.takeWhile isTokChar)
        · rw [if_pos q]
          have hflush : flushSpans (some (i, ch :: cs2.takeWhile isTokChar)) =
              [(i, i + (ch :: cs2.takeWhile isTokChar).length)] := by
            simp [flushSpans, q]
          rw [hflush, List.singleton_append, applySpans, hidx, ihdw]
          simp
        · rw [if_neg q]
          have hflush : flushSpans (some (i, ch :: cs2.takeWhile isTokChar)) = [] := by
            simp [flushSpans, q]
          rw [hflush, List.nil_append, hidx,
            applySpans_shift s i (ch :: cs2.takeWhile isTokChar).length _
              (fun sp hsp => spansOfRuns_start_le hsp), ihdw]
          have htake : (s.drop i).take (ch :: cs2.takeWhile isTokChar).length =
              ch :: cs2.takeWhile isTokChar := by
            rw [hs, ← hsplit, List.take_left]
          rw [htake]
      · have hdrop2 : s.drop (i + 1) = cs2 := by
          rw [← List.tail_drop, hs]
          rfl
        have hruns : runs i (ch :: cs2) = runs (i + 1) cs2 := by
          rw [runs]
          simp [h]
        have hspec : spec_redact (ch :: cs2) = ch :: spec_redact cs2 := by
          rw [spec_redact]
          simp [h]
        rw [hruns, hspec]
        rw [applySpans_shift s i 1 _ (fun sp hsp => spansOfRuns_start_le hsp)]
        rw [ih cs2 hcs2 (i + 1) s hdrop2]
        have htake : (s.drop i).take 1 = [ch] := by
          rw [hs]
          rfl
        rw [htake]
        rfl

theorem count_nl_eq_zero_of_tok {l : List Char} (h : ∀ c ∈ l, isTokChar c = true) :
    l.count '\n' = 0 := by
  rw [List.count_eq_zero]
  intro hmem
  have h1 := h _ hmem
  have h2 : isTokChar '\n' = false := by decide
  rw [h2] at h1
  cases h1

theorem redacted_count_nl : REDACTED.count '\n' = 0 := by decide

/-- Specification-side redaction preserves the number of newline characters:
runs consist solely of token characters (newline is not one) and the sentinel
contains no newline. -/
theorem spec_redact_count_nl : ∀ (n : ℕ) (l : List Char), l.length ≤ n →
    (spec_redact l).count '\n' = l.count '\n' := by
  intro n
  induction n with
  | zero =>
    intro l hl
    obtain rfl : l = [] := List.length_eq_zero.1 (Nat.le_zero.1 hl)
    rw [spec_redact]
  | succ n ih =>
    intro l hl
    cases l with
    | nil => rw [spec_redact]
    | cons ch cs2 =>
      have hcs2 : cs2.length ≤ n := by
        simp only [List.length_cons] at hl
        omega
      by_cases h : isTokChar ch
      · have hdwlen : (cs2.dropWhile isTokChar).length ≤ n :=
          le_trans (List.dropWhile_suffix _).length_le hcs2
        have hspec : spec_redact (ch :: cs2) =
            (if qualifiesRun (ch :: cs2.takeWhile isTokChar) then REDACTED
             else ch :: cs2.takeWhile isTokChar) ++ spec_redact (cs2.dropWhile isTokChar) := by
          rw [spec_redact]
          simp [h]
        have htwz : (cs2.takeWhile isTokChar).count '\n' = 0 :=
          count_nl_eq_zero_of_tok (fun c hc => List.mem_takeWhile_imp hc)
        have hchz : (ch == '\n') = false := by
          have h2 : isTokChar '\n' = false := by decide
          cases hch : (ch == '\n')
          · rfl
          · rw [beq_iff_eq] at hch
            rw [hch, h2] at h
            cases h
        have hifz : (if qualifiesRun (ch :: cs2.takeWhile isTokChar) then REDACTED
            else ch :: cs2.takeWhile isTokChar).count '\n' = 0 := by
          by_cases q : qualifiesRun (ch :: cs2.takeWhile isTokChar)
          · rw [if_pos q]
            exact redacted_count_nl
          · rw [if_neg q, List.count_cons, htwz, hchz]
            rfl
        rw [hspec, List.count_append, hifz, ih _ hdwlen, Nat.zero_add]
        conv_rhs => rw [← List.takeWhile_append_dropWhile (p := isTokChar) (l := cs2)]
        rw [List.count_cons, List.count_append, htwz, hchz]
        simp
      · have hspec : spec_redact (ch :: cs2) = ch :: spec_redact cs2 := by
          rw [spec_redact]
          simp [h]
        rw [hspec, List.count_cons, List.count_cons, ih _ hcs2]

theorem entropyGe37_iff_shannonEntropy (t : List Char) (hne : t ≠ []) :
    entropyGe37 t = true ↔ (37/10 : ℝ) ≤ shannonEntropy t := by
  have hn : 0 < t.length := List.length_pos.2 hne
  have hnemp : t.isEmpty = false := by
    cases t with
    | nil => exact absurd rfl hne
    | cons a l => rfl
  have hnd := List.nodup_dedup t
  have hkpos : ∀ c ∈ t.toFinset, 0 < t.count c := by
    intro c hc
    rw [List.mem_toFinset] at hc
    exact List.count_pos_iff.2 hc
  have hN : (0 : ℝ) < (t.length : ℝ) := by
    exact_mod_cast hn
  have hlog2 : (0 : ℝ) < Real.log 2 := Real.log_pos (by norm_num)
  have hsumk : ∑ c ∈ t.toFinset, t.count c = t.length := List.sum_toFinset_count_eq_length t
  have hdedupfin : t.dedup.toFinset = t.toFinset := by
    ext c
    simp [List.mem_toFinset, List.mem_dedup]
  have hlistsum : ∀ f : Char → ℝ, (t.dedup.map f).sum = ∑ c ∈ t.toFinset, f c := by
    intro f
    rw [← List.sum_toFinset f hnd, hdedupfin]
  have hlistprod : ∀ g : ℕ → ℕ,
      ((t.dedup.map (fun c => t.count c)).map g).prod = ∏ c ∈ t.toFinset, g (t.count c) := by
    intro g
    rw [List.map_map]
    rw [show (g ∘ fun c => t.count c) = fun c => g (t.count c) from rfl]
    rw [← List.prod_toFinset (fun c => g (t.count c)) hnd, hdedupfin]
  -- closed form of the entropy
  have hent : shannonEntropy t =
      ((t.length : ℝ) * Real.log t.length -
        ∑ c ∈ t.toFinset, (t.count c : ℝ) * Real.log (t.count c)) /
        ((t.length : ℝ) * Real.log 2) := by
    rw [shannonEntropy, hnemp]
    simp only [Bool.false_eq_true, if_false]
    rw [hlistsum]
    have hterm : ∀ c ∈ t.toFinset,
        ((t.count c : ℝ) / t.length) * Real.logb 2 ((t.count c : ℝ) / t.length) =
          ((t.count c : ℝ) * Real.log (t.count c) -
            (t.count c : ℝ) * Real.log t.length) / ((t.length : ℝ) * Real.log 2) := by
      intro c hc
      have hk : (0 : ℝ) < (t.count c : ℝ) := by
        exact_mod_cast hkpos c hc
      rw [Real.logb, Real.log_div (ne_of_gt hk) (ne_of_gt hN)]
      field_simp
      ring
    rw [Finset.sum_congr rfl hterm, ← Finset.sum_div, Finset.sum_sub_distrib,
      ← Finset.sum_mul]
    have hcast : ∑ c ∈ t.toFinset, (t.count c : ℝ) = (t.length : ℝ) := by
      rw [← Nat.cast_sum, hsumk]
    rw [hcast]
    field_simp
  rw [hent]
  -- move to the log form
  have hdenom : (0 : ℝ) < (t.length : ℝ) * Real.log 2 := mul_pos hN hlog2
  rw [le_div_iff hdenom]
  -- identify both sides with logs of integer quantities
  have hprodpos : ∀ c ∈ t.toFinset, (t.count c : ℝ) ^ (10 * t.count c) ≠ 0 := by
    intro c hc
    have hk : (0 : ℝ) < (t.count c : ℝ) := by
      exact_mod_cast hkpos c hc
    positivity
  have hlog_slog : ∑ c ∈ t.toFinset, Real.log ((t.count c : ℝ) ^ (10 * t.count c)) =
      10 * ∑ c ∈ t.toFinset, (t.count c : ℝ) * Real.log (t.count c) := by
    rw [Finset.mul_sum]
    apply Finset.sum_congr rfl
    intro c _
    rw [Real.log_pow]
    push_cast
    ring
  have hlogA : Real.log ((2 : ℝ) ^ (37 * t.length) *
      ∏ c ∈ t.toFinset, (t.count c : ℝ) ^ (10 * t.count c)) =
      (37 * t.length : ℕ) * Real.log 2 +
        10 * ∑ c ∈ t.toFinset, (t.count c : ℝ) * Real.log (t.count c) := by
    rw [Real.log_mul (by positivity) (Finset.prod_ne_zero_iff.2 hprodpos),
      Real.log_pow, Real.log_prod _ _ hprodpos, hlog_slog]
  have hlogB : Real.log ((t.length : ℝ) ^ (10 * t.length)) =
      (10 * t.length : ℕ) * Real.log t.length := Real.log_pow _ _
  have hApos : (0 : ℝ) < (2 : ℝ) ^ (37 * t.length) *
      ∏ c ∈ t.toFinset, (t.count c : ℝ) ^ (10 * t.count c) := by
    apply mul_pos (by positivity)
    apply Finset.prod_pos
    intro c hc
    have hk : (0 : ℝ) < (t.count c : ℝ) := by
      exact_mod_cast hkpos c hc
    positivity
  have hBpos : (0 : ℝ) < (t.length : ℝ) ^ (10 * t.length) := by positivity
  constructor
  · intro h
    -- h : the boolean criterion holds; conclude the real inequality
    rw [entropyGe37, hnemp] at h
    simp only [Bool.false_eq_true, if_false, decide_eq_true_eq] at h
    rw [hlistprod (fun k => k ^ (10 * k))] at h
    have hcast : ((2 ^ (37 * t.length) *
        ∏ c ∈ t.toFinset, (t.count c) ^ (10 * t.count c) : ℕ) : ℝ) ≤
        ((t.length ^ (10 * t.length) : ℕ) : ℝ) := by
      exact_mod_cast h
    push_cast at hcast
    have hlog := (Real.log_le_log_iff hApos hBpos).2 hcast
    rw [hlogA, hlogB] at hlog
    push_cast at hlog
    nlinarith [hlog]
  · intro h
    rw [entropyGe37, hnemp]
    simp only [Bool.false_eq_true, if_false, decide_eq_true_eq]
    rw [hlistprod (fun k => k ^ (10 * k))]
    have hlog : Real.log ((2 : ℝ) ^ (37 * t.length) *
        ∏ c ∈ t.toFinset, (t.count c : ℝ) ^ (10 * t.count c)) ≤
        Real.log ((t.length : ℝ) ^ (10 * t.length)) := by
      rw [hlogA, hlogB]
      push_cast
      nlinarith [h]
    have hreal := (Real.log_le_log_iff hApos hBpos).1 hlog
    have hcast : ((2 ^ (37 * t.length) *
        ∏ c ∈ t.toFinset, (t.count c) ^ (10 * t.count c) : ℕ) : ℝ) ≤
        ((t.length ^ (10 * t.length) : ℕ) : ℝ) := by
      push_cast
      exact hreal
    exact_mod_cast hcast

/-- Claim C4 (confirmed): the redactor replaces exactly the maximal contiguous
runs of alphanumeric-plus-`_-.+/=` characters of length at least 20 whose
per-character Shannon entropy is at least 3.7 bits with the fixed sentinel
`‹REDACTED›`, returns the number of replacements, and preserves the number of
newline characters of the input. -/
theorem redactor_replaces_exactly_qualifying_runs (s : List Char) :
    find_high_entropy_tokens s = spansOfRuns (runs 0 s) ∧
    (redact_high_entropy s).1 = spec_redact s ∧
    (redact_high_entropy s).2 = (spansOfRuns (runs 0 s)).length ∧
    (redact_high_entropy s).1.count '\n' = s.count '\n' ∧
    (∀ tk : List Char, tk ≠ [] →
      (entropyGe37 tk = true ↔ (37/10 : ℝ) ≤ shannonEntropy tk)) := by
  have h1 := find_high_entropy_tokens_eq s
  have hL := applySpans_runs s.length s le_rfl 0 s (by simp)
  have h2 : (redact_high_entropy s).1 = spec_redact s := by
    simp only [redact_high_entropy, h1]
    by_cases he : (spansOfRuns (runs 0 s)).isEmpty
    · rw [if_pos he]
      have hnil : spansOfRuns (runs 0 s) = [] := List.isEmpty_iff.1 he
      rw [← hL, hnil]
      show s = s.drop 0
      rw [List.drop_zero]
    · rw [if_neg he]
      exact hL
  refine ⟨h1, h2, ?_, ?_, fun tk hk => entropyGe37_iff_shannonEntropy tk hk⟩
  · simp only [redact_high_entropy, h1]
    by_cases he : (spansOfRuns (runs 0 s)).isEmpty
    · rw [if_pos he]
      have hnil : spansOfRuns (runs 0 s) = [] := List.isEmpty_iff.1 he
      rw [hnil]
      rfl
    · rw [if_neg he]
  · rw [h2]
    exact spec_redact_count_nl s.length s le_rfl

set_option maxRecDepth 1000000 in
theorem redactor_replaces_exactly_qualifying_runs_witness :
    ("abcdefghijklmnopqrstuvwxyz0123456789ABCD".toList ≠ ([] : List Char)) ∧
    (entropyGe37 "abcdefghijklmnopqrstuvwxyz0123456789ABCD".toList = true ↔
      (37/10 : ℝ) ≤ shannonEntropy "abcdefghijklmnopqrstuvwxyz0123456789ABCD".toList) :=
  ⟨by decide,
    (redactor_replaces_exactly_qualifying_runs []).2.2.2.2
      "abcdefghijklmnopqrstuvwxyz0123456789ABCD".toList (by decide)⟩

theorem spec_greedyAux_append (c : String → ℕ) (m : List (String × FileInfo)) (B : ℤ) :
    ∀ (l1 l2 : List (ℤ × String)) (texts : List String),
    spec_greedyAux c m B texts (l1 ++ l2) =
      ((spec_greedyAux c m B (spec_greedyAux c m B texts l1).1 l2).1,
        (spec_greedyAux c m B texts l1).2 ++
          (spec_greedyAux c m B (spec_greedyAux c m B texts l1).1 l2).2) := by
  intro l1
  induction l1 with
  | nil =>
    intro l2 texts
    simp [spec_greedyAux]
  | cons x rest ih =>
    intro l2 texts
    rw [List.cons_append]
    by_cases hx : (count_tokens c (texts ++ [getContent m x.2]) : ℤ) ≤ B
    · simp only [spec_greedyAux, if_pos hx, ih l2 (texts ++ [getContent m x.2]),
        List.cons_append]
    · simp only [spec_greedyAux, if_neg hx, ih l2 texts]

/-- The tier-level fold of `budgeted_pack` is the greedy pass over the tier
members tagged with the tier priority. -/
theorem tier_foldl_eq (c : String → ℕ) (m : List (String × FileInfo)) (B : ℤ) (pr : ℤ) :
    ∀ (rels : List String) (texts : List String) (out : List (ℤ × String)),
    rels.foldl (fun st2 r =>
      let trial := st2.1 ++ [getContent m r]
      if (count_tokens c trial : ℤ) ≤ B then (trial, st2.2 ++ [(pr, r)]) else st2)
      (texts, out) =
    ((spec_greedyAux c m B texts (rels.map (fun r => (pr, r)))).1,
      out ++ (spec_greedyAux c m B texts (rels.map (fun r => (pr, r)))).2) := by
  intro rels
  induction rels with
  | nil =>
    intro texts out
    simp [spec_greedyAux]
  | cons r rest ih =>
    intro texts out
    simp only [List.foldl_cons, List.map_cons]
    by_cases hr : (count_tokens c (texts ++ [getContent m r]) : ℤ) ≤ B
    · simp only [if_pos hr, ih, spec_greedyAux, List.append_assoc, List.singleton_append]
    · simp only [if_neg hr, ih, spec_greedyAux]

/-- The whole double fold of `budgeted_pack` is one greedy pass over the
flattened processing order. -/
theorem keys_foldl_eq (c : String → ℕ) (prioritized : List (ℤ × String))
    (m : List (String × FileInfo)) (B : ℤ) :
    ∀ (keys : List ℤ) (texts : List String) (out : List (ℤ × String)),
    keys.foldl (fun st pr =>
      (sortBy (lenLe m) (tierRels prioritized m pr)).foldl (fun st2 r =>
        let trial := st2.1 ++ [getContent m r]
        if (count_tokens c trial : ℤ) ≤ B then (trial, st2.2 ++ [(pr, r)]) else st2) st)
      (texts, out) =
    ((spec_greedyAux c m B texts (keys.flatMap
        (fun pr => (sortBy (lenLe m) (tierRels prioritized m pr)).map (fun r => (pr, r))))).1,
      out ++ (spec_greedyAux c m B texts (keys.flatMap
        (fun pr => (sortBy (lenLe m) (tierRels prioritized m pr)).map (fun r => (pr, r))))).2) := by
  intro keys
  induction keys with
  | nil =>
    intro texts out
    simp [spec_greedyAux]
  | cons pr rest ih =>
    intro texts out
    rw [List.foldl_cons, tier_foldl_eq, ih, List.flatMap_cons,
      spec_greedyAux_append]
    simp [List.append_assoc]

/-- `budgeted_pack` (with its explicit budget) is exactly the spec's greedy
pass over the spec's processing order, started from the preamble texts. -/
theorem pack_eq_greedy (c : String → ℕ) (prioritized : List (ℤ × String))
    (m : List (String × FileInfo)) (B : ℤ) (request overview : String) :
    budgeted_pack_b c prioritized m B request overview =
      spec_greedy c m B [ANALYSIS_SYSTEM, request, overview]
        (spec_packOrder prioritized m) := by
  rw [budgeted_pack_b, spec_greedy, spec_packOrder, keys_foldl_eq]
  simp

theorem mem_insertBy {α : Type} (le : α → α → Bool) (a x : α) :
    ∀ l : List α, x ∈ insertBy le a l → x = a ∨ x ∈ l := by
  intro l
  induction l with
  | nil =>
    intro h
    simp [insertBy] at h
    exact Or.inl h
  | cons b bs ih =>
    intro h
    by_cases hb : le b a
    · rw [insertBy, if_pos hb] at h
      rcases List.mem_cons.1 h with h1 | h1
      · exact Or.inr (List.mem_cons.2 (Or.inl h1))
      · rcases ih h1 with h2 | h2
        · exact Or.inl h2
        · exact Or.inr (List.mem_cons.2 (Or.inr h2))
    · rw [insertBy, if_neg hb] at h
      rcases List.mem_cons.1 h with h1 | h1
      · exact Or.inl h1
      · exact Or.inr h1

theorem insertBy_perm {α : Type} (le : α → α → Bool) (a : α) :
    ∀ l : List α, List.Perm (insertBy le a l) (a :: l) := by
  intro l
  induction l with
  | nil => rfl
  | cons b bs ih =>
    by_cases hb : le b a
    · rw [insertBy, if_pos hb]
      exact (ih.cons b).trans (List.Perm.swap a b bs)
    · rw [insertBy, if_neg hb]

theorem insertBy_pairwise {α : Type} (le : α → α → Bool)
    (htot : ∀ a b, le a b || le b a) (htrans : ∀ a b c,
      le a b = true → le b c = true → le a c = true) (a : α) :
    ∀ l : List α, List.Pairwise (fun x y => le x y = true) l →
      List.Pairwise (fun x y => le x y = true) (insertBy le a l) := by
  intro l
  induction l with
  | nil =>
    intro _
    simp [insertBy]
  | cons b bs ih =>
    intro h
    rcases List.pairwise_cons.1 h with ⟨hb_all, hbs⟩
    by_cases hb : le b a
    · rw [insertBy, if_pos hb]
      refine List.pairwise_cons.2 ⟨?_, ih hbs⟩
      intro x hx
      rcases mem_insertBy le a x bs hx with rfl | hx2
      · exact hb
      · exact hb_all x hx2
    · rw [insertBy, if_neg hb]
      have hab : le a b = true := by
        have := htot a b
        cases hab : le a b
        · rw [hab] at this
          simp at this
          rw [this] at hb
          exact absurd rfl hb
        · rfl
      refine List.pairwise_cons.2 ⟨?_, h⟩
      intro x hx
      rcases List.mem_cons.1 hx with rfl | hx2
      · exact hab
      · exact htrans a b x hab (hb_all x hx2)

theorem sortBy_perm_aux {α : Type} (le : α → α → Bool) :
    ∀ (l acc : List α),
      List.Perm (l.foldl (fun acc a => insertBy le a acc) acc) (acc ++ l) := by
  intro l
  induction l with
  | nil =>
    intro acc
    simp
  | cons x xs ih =>
    intro acc
    rw [List.foldl_cons]
    refine (ih (insertBy le x acc)).trans ?_
    have h1 : List.Perm (insertBy le x acc ++ xs) ((x :: acc) ++ xs) :=
      (insertBy_perm le x acc).append_right xs
    refine h1.trans ?_
    rw [List.cons_append]
    exact List.perm_middle.symm

theorem sortBy_perm {α : Type} (le : α → α → Bool) (l : List α) :
    List.Perm (sortBy le l) l := by
  have h := sortBy_perm_aux le l []
  simpa [sortBy] using h

theorem sortBy_sorted {α : Type} (le : α → α → Bool)
    (htot : ∀ a b, le a b || le b a) (htrans : ∀ a b c,
      le a b = true → le b c = true → le a c = true) (l : List α) :
    List.Pairwise (fun x y => le x y = true) (sortBy le l) := by
  rw [sortBy]
  have h : ∀ (l2 acc : List α), List.Pairwise (fun x y => le x y = true) acc →
      List.Pairwise (fun x y => le x y = true)
        (l2.foldl (fun acc a => insertBy le a acc) acc) := by
    intro l2
    induction l2 with
    | nil =>
      intro acc h
      exact h
    | cons x xs ih =>
      intro acc h
      rw [List.foldl_cons]
      exact ih _ (insertBy_pairwise le htot htrans x acc h)
  exact h l [] List.Pairwise.nil

theorem pairwise_of_forall {α : Type} {R : α → α → Prop} (h : ∀ a b, R a b) :
    ∀ l : List α, List.Pairwise R l := by
  intro l
  induction l with
  | nil => exact .nil
  | cons a t ih => exact .cons (fun b _ => h a b) ih

theorem packKeys_sorted (prioritized : List (ℤ × String)) (m : List (String × FileInfo)) :
    List.Pairwise (fun a b : ℤ => b ≤ a) (packKeys prioritized m) := by
  have h := sortBy_sorted (fun a b : ℤ => decide (b ≤ a))
    (fun a b => by
      rcases le_total b a with h1 | h1 <;> simp [h1])
    (fun a b cc h1 h2 => by
      simp only [decide_eq_true_eq] at h1 h2 ⊢
      exact le_trans h2 h1)
    ((prioritized.filter (fun x => hasContent m x.2)).map Prod.fst).dedup
  rw [packKeys]
  exact h.imp (fun hab => by simpa using hab)

theorem tier_sorted (prioritized : List (ℤ × String)) (m : List (String × FileInfo))
    (pr : ℤ) :
    List.Pairwise (fun a b => (getContent m a).length ≤ (getContent m b).length)
      (sortBy (lenLe m) (tierRels prioritized m pr)) := by
  have h := sortBy_sorted (lenLe m)
    (fun a b => by
      rcases le_total ((getContent m a).length) ((getContent m b).length) with h1 | h1 <;>
        simp [lenLe, h1])
    (fun a b cc h1 h2 => by
      simp only [lenLe, decide_eq_true_eq] at h1 h2 ⊢
      exact le_trans h1 h2)
    (tierRels prioritized m pr)
  exact h.imp (fun hab => by simpa [lenLe] using hab)

theorem mem_sortBy {α : Type} (le : α → α → Bool) (l : List α) (x : α) :
    x ∈ sortBy le l ↔ x ∈ l := (sortBy_perm le l).mem_iff

theorem mem_spec_packOrder_fst {prioritized : List (ℤ × String)}
    {m : List (String × FileInfo)} {x : ℤ × String}
    (hx : x ∈ spec_packOrder prioritized m) :
    x.1 ∈ packKeys prioritized m ∧ x.2 ∈ tierRels prioritized m x.1 := by
  rw [spec_packOrder, List.mem_flatMap] at hx
  obtain ⟨pr, hpr, hx2⟩ := hx
  rw [List.mem_map] at hx2
  obtain ⟨r, hr, rfl⟩ := hx2
  exact ⟨hpr, (mem_sortBy _ _ _).1 hr⟩

/-- The spec's processing order carries nonincreasing priorities: tiers are
visited from highest to lowest. -/
theorem spec_packOrder_prio_desc (prioritized : List (ℤ × String))
    (m : List (String × FileInfo)) :
    List.Pairwise (fun x y : ℤ × String => y.1 ≤ x.1) (spec_packOrder prioritized m) := by
  rw [spec_packOrder]
  rw [List.pairwise_flatMap]
  constructor
  · intro pr _
    rw [List.pairwise_map]
    exact pairwise_of_forall (fun _ _ => le_refl pr) _
  · refine (packKeys_sorted prioritized m).imp ?_
    intro pr1 pr2 h12 x hx y hy
    rw [List.mem_map] at hx hy
    obtain ⟨r1, _, rfl⟩ := hx
    obtain ⟨r2, _, rfl⟩ := hy
    exact h12

/-- Every entry of the processing order passes the content guard. -/
theorem spec_packOrder_hasContent {prioritized : List (ℤ × String)}
    {m : List (String × FileInfo)} {x : ℤ × String}
    (hx : x ∈ spec_packOrder prioritized m) : hasContent m x.2 = true := by
  have h2 := (mem_spec_packOrder_fst hx).2
  rw [tierRels, List.mem_map] at h2
  obtain ⟨y, hy, he⟩ := h2
  have h3 := List.of_mem_filter hy
  rw [Bool.and_eq_true] at h3
  rw [← he]
  exact h3.2

/-- The greedy pass only accepts candidates from its input order. -/
theorem spec_greedy_subset (c : String → ℕ) (m : List (String × FileInfo)) (B : ℤ) :
    ∀ (order : List (ℤ × String)) (texts : List String) (x : ℤ × String),
    x ∈ spec_greedy c m B texts order → x ∈ order := by
  intro order
  induction order with
  | nil =>
    intro texts x hx
    simp [spec_greedy, spec_greedyAux] at hx
  | cons y rest ih =>
    intro texts x hx
    rw [spec_greedy] at hx
    by_cases hy : (count_tokens c (texts ++ [getContent m y.2]) : ℤ) ≤ B
    · rw [spec_greedyAux, if_pos hy] at hx
      rcases List.mem_cons.1 hx with h1 | h1
      · exact List.mem_cons.2 (Or.inl h1)
      · exact List.mem_cons.2 (Or.inr (ih _ x h1))
    · rw [spec_greedyAux, if_neg hy] at hx
      exact List.mem_cons.2 (Or.inr (ih _ x hx))

/-- Claim C2 (confirmed): the Budgeted Packer is exactly one greedy forward
pass over the processing order built from the spec's rule — priority tiers
from highest to lowest, candidates inside a tier by ascending content
length — accepting a candidate iff the recounted trial set (running set plus
the candidate's content) stays within `(1 - headroom) · 1,000,000`; a skipped
candidate never reappears later in the pass (the greedy pass consumes its
order left to right exactly once). -/
theorem packer_is_tiered_greedy_pass (c : String → ℕ) (prioritized : List (ℤ × String))
    (m : List (String × FileInfo)) (headroom : ℚ) (request overview : String) :
    budgeted_pack c prioritized m headroom request overview =
      spec_greedy c m (budget headroom) [ANALYSIS_SYSTEM, request, overview]
        (spec_packOrder prioritized m) ∧
    List.Pairwise (fun x y : ℤ × String => y.1 ≤ x.1) (spec_packOrder prioritized m) ∧
    (∀ pr : ℤ, List.Pairwise
      (fun a b => (getContent m a).length ≤ (getContent m b).length)
      (sortBy (lenLe m) (tierRels prioritized m pr))) ∧
    (∀ texts t, count_tokens c (texts ++ [t]) = count_tokens c texts + c t) := by
  refine ⟨?_, spec_packOrder_prio_desc prioritized m,
    fun pr => tier_sorted prioritized m pr, fun texts t => by simp [count_tokens]⟩
  rw [budgeted_pack]
  exact pack_eq_greedy c prioritized m (budget headroom) request overview

theorem mem_dinsert {α : Type} (k : String) (v : α) (x : String × α) :
    ∀ l : List (String × α), x ∈ dinsert k v l → x = (k, v) ∨ x ∈ l := by
  intro l
  induction l with
  | nil =>
    intro h
    simp [dinsert] at h
    exact Or.inl h
  | cons y ys ih =>
    intro h
    obtain ⟨k2, v2⟩ := y
    by_cases hk : k2 = k
    · rw [dinsert, if_pos hk] at h
      rcases List.mem_cons.1 h with h1 | h1
      · subst hk
        exact Or.inl h1
      · exact Or.inr (List.mem_cons.2 (Or.inr h1))
    · rw [dinsert, if_neg hk] at h
      rcases List.mem_cons.1 h with h1 | h1
      · exact Or.inr (List.mem_cons.2 (Or.inl h1))
      · rcases ih h1 with h2 | h2
        · exact Or.inl h2
        · exact Or.inr (List.mem_cons.2 (Or.inr h2))

theorem stat_and_filter_invariant (cap : ℕ) (allow : Bool) :
    ∀ (files : List (String × Option ℕ)) (st : List (String × FileInfo) × List String),
    (∀ rel fi, (rel, fi) ∈ st.1 → admitted cap allow rel fi) →
    ∀ rel fi, (rel, fi) ∈ (files.foldl (saf_step cap allow) st).1 →
      admitted cap allow rel fi := by
  intro files
  induction files with
  | nil =>
    intro st hst rel fi h
    exact hst rel fi h
  | cons f rest ih =>
    intro st hst rel fi h
    rw [List.foldl_cons] at h
    refine ih (saf_step cap allow st f) ?_ rel fi h
    obtain ⟨p, os⟩ := f
    cases os with
    | none =>
      intro rel2 fi2 h2
      exact hst rel2 fi2 h2
    | some size =>
      intro rel2 fi2 h2
      rw [saf_step] at h2
      by_cases hsz : cap < size
      · rw [if_pos hsz] at h2
        exact hst rel2 fi2 h2
      · rw [if_neg hsz] at h2
        by_cases hbl : (!allow && is_secret_blocklisted p) = true
        · rw [if_pos hbl] at h2
          exact hst rel2 fi2 h2
        · rw [if_neg hbl] at h2
          rcases mem_dinsert p _ (rel2, fi2) st.1 h2 with h3 | h3
          · have h4 : rel2 = p := congrArg Prod.fst h3
            have h5 : fi2 = { path := p, size := size } := congrArg Prod.snd h3
            subst h4
            subst h5
            refine ⟨by show size ≤ cap; omega, ?_, rfl, rfl, rfl, rfl⟩
            intro hallow
            subst hallow
            rw [Bool.not_false, Bool.true_and] at hbl
            exact Bool.eq_false_iff.2 hbl
          · exact hst rel2 fi2 h3

/-- Claim C3 (confirmed): every admitted record has size within the cap and
(when secrets are not allowed) a path clean of the secret blocklist; excluded
records never enter the mapping (the mapping entries all carry clear flags
and no content yet), and the packer only ever emits paths whose record is
present with loaded content. -/
theorem admission_filter_sound :
    (∀ (files : List (String × Option ℕ)) (cap : ℕ) (allow : Bool) rel fi,
      (rel, fi) ∈ (stat_and_filter files cap allow).1 →
      fi.size ≤ cap ∧ (allow = false → is_secret_blocklisted rel = false) ∧
        fi.oversized = false ∧ fi.blocked_secret = false ∧ fi.content = none ∧
        fi.path = rel) ∧
    (∀ (c : String → ℕ) (prioritized : List (ℤ × String))
      (m : List (String × FileInfo)) (B : ℤ) (request overview : String)
      (pr : ℤ) (r : String), (pr, r) ∈ budgeted_pack_b c prioritized m B request overview →
      hasContent m r = true ∧ (dlookup m r).isSome = true) := by
  constructor
  · intro files cap allow rel fi h
    exact stat_and_filter_invariant cap allow files ([], [])
      (fun _ _ h2 => absurd h2 (List.not_mem_nil _)) rel fi h
  · intro c prioritized m B request overview pr r h
    rw [pack_eq_greedy] at h
    have h2 := spec_greedy_subset c m B _ _ _ h
    have h3 : hasContent m r = true := spec_packOrder_hasContent h2
    refine ⟨h3, ?_⟩
    rw [hasContent] at h3
    rcases hl : dlookup m r with _ | fi2
    · rw [hl] at h3
      simp at h3
    · rfl

set_option maxRecDepth 100000 in
/-- Witness for Claim C3's theorem on a concrete admission run and a concrete
pack. -/
theorem admission_filter_sound_witness :
    ({ path := "a.py", size := 10 } : FileInfo).size ≤ 100 ∧
    is_secret_blocklisted "a.py" = false ∧
    hasContent [("a.py", { path := "a.py", size := 10, content := some "x" })] "a.py" = true := by
  have h := admission_filter_sound
  have h1 := h.1 [("a.py", some 10), (".env", some 5), ("big.bin", some 999)] 100 false
    "a.py" { path := "a.py", size := 10 } (by decide)
  have h2 := h.2 tokFB [(50, "a.py")]
    [("a.py", { path := "a.py", size := 10, content := some "x" })] 1000000 "" ""
    50 "a.py" (by decide)
  exact ⟨h1.1, h1.2.1 rfl, h2.1⟩

theorem count_tokens_snoc (c : String → ℕ) (texts : List String) (t : String) :
    count_tokens c (texts ++ [t]) = count_tokens c texts + c t := by
  simp [count_tokens]

/-- If the first candidate already overflows the budget and every later
candidate weighs at least as much, the greedy pass accepts nothing. -/
theorem greedy_none (c : String → ℕ) (m : List (String × FileInfo)) (B : ℤ) :
    ∀ (order : List (ℤ × String)) (texts : List String) (w : ℕ),
    (∀ x ∈ order, w ≤ c (getContent m x.2)) →
    (B < (count_tokens c texts : ℤ) + w) →
    spec_greedy c m B texts order = [] := by
  intro order
  induction order with
  | nil =>
    intro texts w _ _
    simp [spec_greedy, spec_greedyAux]
  | cons x rest ih =>
    intro texts w hw hgt
    have hwx := hw x (List.mem_cons_self _ _)
    have hx : ¬ ((count_tokens c (texts ++ [getContent m x.2]) : ℤ) ≤ B) := by
      rw [count_tokens_snoc]
      push_cast
      omega
    rw [spec_greedy, spec_greedyAux, if_neg hx]
    exact ih texts w (fun y hy => hw y (List.mem_cons_of_mem _ hy)) hgt

/-- With candidate weights nondecreasing along the processing order, a
tighter budget never accepts more candidates. -/
theorem greedy_mono (c : String → ℕ) (m : List (String × FileInfo)) :
    ∀ (order : List (ℤ × String)) (texts : List String) (B1 B2 : ℤ), B2 ≤ B1 →
    List.Pairwise (fun x y => c (getContent m x.2) ≤ c (getContent m y.2)) order →
    (spec_greedy c m B2 texts order).length ≤ (spec_greedy c m B1 texts order).length := by
  intro order
  induction order with
  | nil =>
    intro texts B1 B2 _ _
    simp [spec_greedy, spec_greedyAux]
  | cons x rest ih =>
    intro texts B1 B2 hB hp
    rcases List.pairwise_cons.1 hp with ⟨hx_all, hrest⟩
    by_cases h2 : (count_tokens c (texts ++ [getContent m x.2]) : ℤ) ≤ B2
    · have h1 : (count_tokens c (texts ++ [getContent m x.2]) : ℤ) ≤ B1 := le_trans h2 hB
      simp only [spec_greedy, spec_greedyAux, if_pos h2, if_pos h1, List.length_cons]
      exact Nat.succ_le_succ (ih _ B1 B2 hB hrest)
    · by_cases h1 : (count_tokens c (texts ++ [getContent m x.2]) : ℤ) ≤ B1
      · have hz : spec_greedy c m B2 texts rest = [] := by
          refine greedy_none c m B2 rest texts (c (getContent m x.2)) hx_all ?_
          rw [count_tokens_snoc] at h2
          push_cast at h2 ⊢
          omega
        simp only [spec_greedy, spec_greedyAux, if_neg h2, if_pos h1]
        rw [spec_greedy] at hz
        rw [hz]
        simp
      · simp only [spec_greedy, spec_greedyAux, if_neg h2, if_neg h1]
        exact ih texts B1 B2 hB hrest

theorem budget_antitone {h1 h2 : ℚ} (h : h1 ≤ h2) : budget h2 ≤ budget h1 := by
  rw [budget, budget]
  apply Int.floor_mono
  have hsub : (1 : ℚ) - h2 ≤ 1 - h1 := by linarith
  exact mul_le_mul_of_nonneg_right hsub (by norm_num)

/-- Claim C6 (amended): tightening the budget cannot increase the accepted
count when the token weights are nondecreasing along the packer's processing
order (in particular for a single priority tier under the length-based
fallback estimator); across distinct tiers the claim fails (see the
counterexample). -/
theorem headroom_monotonic_when_weights_sorted (c : String → ℕ)
    (prioritized : List (ℤ × String)) (m : List (String × FileInfo))
    (request overview : String) (h1 h2 : ℚ) (hle : h1 ≤ h2)
    (hw : List.Pairwise (fun x y => c (getContent m x.2) ≤ c (getContent m y.2))
      (spec_packOrder prioritized m)) :
    (budgeted_pack c prioritized m h2 request overview).length ≤
      (budgeted_pack c prioritized m h1 request overview).length := by
  rw [budgeted_pack, budgeted_pack, pack_eq_greedy, pack_eq_greedy]
  exact greedy_mono c m _ _ _ _ (budget_antitone hle) hw

theorem cex6_budget_tight : budget (9999385/10000000 : ℚ) = 61 := by
  rw [budget]
  rw [show (1 - (9999385/10000000 : ℚ)) * 1000000 = (123/2 : ℚ) by norm_num]
  rw [Int.floor_eq_iff]
  constructor <;> norm_num

theorem cex6_budget_tighter : budget (9999465/10000000 : ℚ) = 53 := by
  rw [budget]
  rw [show (1 - (9999465/10000000 : ℚ)) * 1000000 = (107/2 : ℚ) by norm_num]
  rw [Int.floor_eq_iff]
  constructor <;> norm_num

set_option maxRecDepth 1000000 in
/-- Claim C6 counterexample: with the source's own fallback token estimator,
raising the headroom from 0.9999385 to 0.9999465 (tightening the budget from
⌊61.5⌋ = 61 to ⌊53.5⌋ = 53; both products are half-integers, so the binary64
computation of the source lands on the same integers) makes the packer accept
MORE candidates (two instead of one): the tighter budget rejects the heavy
top-tier file, freeing room for two light low-tier files. -/
theorem headroom_monotonicity_counterexample :
    ((9999385/10000000 : ℚ) ≤ 9999465/10000000) ∧
    (budgeted_pack tokFB cex6_p cex6_m (9999385/10000000) "" "").length = 1 ∧
    (budgeted_pack tokFB cex6_p cex6_m (9999465/10000000) "" "").length = 2 := by
  refine ⟨by norm_num, ?_, ?_⟩
  · rw [budgeted_pack, cex6_budget_tight]
    decide
  · rw [budgeted_pack, cex6_budget_tighter]
    decide

set_option maxRecDepth 1000000 in
/-- Witness for Claim C6's amended theorem: a single-tier candidate list with
nondecreasing weights, a loose and a tight headroom. -/
theorem headroom_monotonic_witness :
    ((0 : ℚ) ≤ 1/2) ∧
    List.Pairwise (fun x y => tokFB (getContent cex6_m x.2) ≤ tokFB (getContent cex6_m y.2))
      (spec_packOrder [(50, "s1"), (50, "s2")] cex6_m) ∧
    (budgeted_pack tokFB [(50, "s1"), (50, "s2")] cex6_m (1/2) "" "").length ≤
      (budgeted_pack tokFB [(50, "s1"), (50, "s2")] cex6_m 0 "" "").length := by
  refine ⟨by norm_num, by decide, ?_⟩
  exact headroom_monotonic_when_weights_sorted tokFB [(50, "s1"), (50, "s2")] cex6_m
    "" "" 0 (1/2) (by norm_num) (by decide)

theorem expandLoop_eq_spec (gm : String → String → Bool) (all_rels : List String)
    (maxS1 : ℕ) : ∀ (pats : List (ℤ × String)) (acc : List String),
    expandLoop gm all_rels maxS1 pats acc =
      acc ++ spec_expand gm all_rels (maxS1 - acc.length) (pats.map Prod.snd) := by
  intro pats
  induction pats with
  | nil =>
    intro acc
    simp [expandLoop, spec_expand]
  | cons x rest ih =>
    intro acc
    obtain ⟨pr, pat⟩ := x
    simp only [expandLoop, List.map_cons, spec_expand]
    by_cases hstop : maxS1 ≤ (acc ++ all_rels.filter (fun rel => qualifiesPat gm pat rel)).length
    · rw [if_pos hstop]
      have h2 : maxS1 - acc.length ≤ (all_rels.filter (fun rel => qualifiesPat gm pat rel)).length := by
        rw [List.length_append] at hstop
        omega
      rw [if_pos h2]
    · rw [if_neg hstop]
      have h2 : ¬ (maxS1 - acc.length ≤ (all_rels.filter (fun rel => qualifiesPat gm pat rel)).length) := by
        rw [List.length_append] at hstop
        omega
      rw [if_neg h2, ih]
      rw [List.length_append, List.append_assoc]
      have h3 : maxS1 - (acc.length + (all_rels.filter (fun rel => qualifiesPat gm pat rel)).length) =
          maxS1 - acc.length - (all_rels.filter (fun rel => qualifiesPat gm pat rel)).length := by
        omega
      rw [h3]

theorem spec_expand_length_le (gm : String → String → Bool) (all_rels : List String) :
    ∀ (pats : List String) (bgt : ℕ),
    (spec_expand gm all_rels bgt pats).length ≤ bgt + all_rels.length := by
  intro pats
  induction pats with
  | nil =>
    intro bgt
    simp [spec_expand]
  | cons pat rest ih =>
    intro bgt
    rw [spec_expand]
    by_cases hstop : bgt ≤ (all_rels.filter (fun rel => qualifiesPat gm pat rel)).length
    · rw [if_pos hstop]
      exact le_trans (List.length_filter_le _ _) (by omega)
    · rw [if_neg hstop]
      rw [List.length_append]
      have h1 := ih (bgt - (all_rels.filter (fun rel => qualifiesPat gm pat rel)).length)
      omega

/-- Claim C7 (amended): stage-1 expansion appends, per processed pattern, the
full list of qualifying discovered paths (a path qualifies iff it starts with
the pattern's wildcard-stripped literal prefix or matches the pattern as a
glob); the loop stops taking further patterns once the accumulated length has
reached `maxStage1`, but the candidate list is NOT deduplicated and the
pattern that crosses the cap contributes wholly, so the length is only
bounded by `maxStage1 + |discovered paths|`; if no pattern matched anything,
the candidate list is the discovered list truncated to `maxStage2`. -/
theorem stage1_expansion_characterized (gm : String → String → Bool)
    (st1 : List (ℤ × String)) (all_rels : List String) (maxS1 maxS2 : ℕ) :
    (expand_stage1 gm st1 all_rels maxS1 maxS2 =
      (if (spec_expand gm all_rels maxS1 ((st1.take maxS1).map Prod.snd)).isEmpty
       then all_rels.take maxS2
       else spec_expand gm all_rels maxS1 ((st1.take maxS1).map Prod.snd))) ∧
    (expand_stage1 gm st1 all_rels maxS1 maxS2).length ≤
      max (maxS1 + all_rels.length) maxS2 ∧
    (∀ pat rel, qualifiesPat gm pat rel =
      ((rstripGlob (normSlash pat.toList)).isPrefixOf rel.toList ||
        gm (String.mk (normSlash pat.toList)) rel)) := by
  have he : expandLoop gm all_rels maxS1 (st1.take maxS1) [] =
      spec_expand gm all_rels maxS1 ((st1.take maxS1).map Prod.snd) := by
    rw [expandLoop_eq_spec]
    simp
  refine ⟨?_, ?_, fun pat rel => rfl⟩
  · rw [expand_stage1, he]
  · rw [expand_stage1, he]
    by_cases hempty : (spec_expand gm all_rels maxS1 ((st1.take maxS1).map Prod.snd)).isEmpty
    · rw [if_pos hempty]
      exact le_trans (List.length_take_le _ _) (le_max_right _ _)
    · rw [if_neg hempty]
      exact le_trans (spec_expand_length_le gm all_rels _ maxS1) (le_max_left _ _)

/-- Claim C7 counterexample: two overlapping patterns with `maxStage1 = 3`
give the candidate list `["ab", "a", "ab", "a"]` — duplicated across
patterns and of size 4 > 3, refuting both the deduplication and the
`≤ maxStage1` bound of the claim. -/
theorem stage1_expansion_counterexample :
    expand_stage1 globMatchS [(90, "a*"), (80, "a")] ["ab", "a"] 3 10 =
      ["ab", "a", "ab", "a"] := by
  decide

theorem budget_zero : budget 0 = 1000000 := by
  rw [budget]
  rw [show (1 - (0 : ℚ)) * 1000000 = ((1000000 : ℤ) : ℚ) by norm_num]
  exact Int.floor_intCast _

/-- Claim C1 (confirmed): the early-fit gate fires iff the token count of
{system preamble, request, overview, every admitted record content} stays
within `(1 - headroom) · 1,000,000`; when it fires, the pipeline's output is
every admitted record at priority 100, in mapping iteration order, and it is
independent of the two selection oracles and of the fallback's reference
extractor — they are never consulted. -/
theorem early_fit_gate (c : String → ℕ) (gm : String → String → Bool)
    (st1 : List (ℤ × String)) (st2f : List String → List (ℤ × String))
    (refs : String → List String) (request overview : String)
    (all_rels : List String) (m : List (String × FileInfo)) (headroom : ℚ)
    (maxS1 maxS2 : ℕ) :
    (fits_early c request overview m headroom = true ↔
      (count_tokens c ([ANALYSIS_SYSTEM, request, overview] ++
        m.filterMap (fun x => x.2.content)) : ℤ) ≤ budget headroom) ∧
    (fits_early c request overview m headroom = true →
      ∀ (st1' : List (ℤ × String)) (st2f' : List String → List (ℤ × String))
        (refs' : String → List String),
        pipeline c gm st1' st2f' refs' request overview all_rels m headroom maxS1 maxS2 =
          m.map (fun x => ((100 : ℤ), x.1))) := by
  constructor
  · rw [fits_early, fits_early_b]
    exact decide_eq_true_iff
  · intro hfits st1' st2f' refs'
    have h2 : fits_early_b c request overview m (budget headroom) = true := hfits
    rw [pipeline, pipeline_b, if_pos h2]

set_option maxRecDepth 100000 in
/-- Witness for Claim C1's theorem: a tiny corpus under headroom 0 fits, and
the pipeline (with arbitrary dummy oracles) bundles the single record at
priority 100. -/
theorem early_fit_gate_witness :
    fits_early tokFB "" "" cex1_m 0 = true ∧
    pipeline tokFB globMatchS [] (fun _ => []) (fun _ => []) "" "" [] cex1_m 0 2000 20000 =
      [(100, "a.py")] := by
  have hfits : fits_early tokFB "" "" cex1_m 0 = true := by
    rw [fits_early, budget_zero]
    decide
  refine ⟨hfits, ?_⟩
  rw [(early_fit_gate tokFB globMatchS [] (fun _ => []) (fun _ => []) "" "" []
    cex1_m 0 2000 20000).2 hfits [] (fun _ => []) (fun _ => [])]
  decide

/-- Claim C9 (confirmed): both selection stages return an empty result when
the ranking oracle is unready (readiness short-circuit) or unavailable (an
erroring client yields the empty response, which parses to no candidates);
and when stage 2 yields an empty ranking the pipeline substitutes the uniform
default priority 50 over the truncated stage-1 candidate set, which is
non-empty whenever candidates exist (and `maxStage2 > 0`). -/
theorem selector_oracle_degradation :
    (∀ g : String, stage1_select false g = [] ∧ stage2_select false g = []) ∧
    (stage1_select true "" = [] ∧ stage2_select true "" = []) ∧
    (∀ (st2 : List (ℤ × String)) (expanded : List String) (maxS2 : ℕ),
      st2 = [] → selection_prioritized st2 expanded maxS2 =
        (expanded.take maxS2).map (fun rel => ((50 : ℤ), rel))) ∧
    (∀ (st2 : List (ℤ × String)) (expanded : List String) (maxS2 : ℕ),
      expanded ≠ [] → 0 < maxS2 →
      selection_prioritized st2 expanded maxS2 ≠ []) := by
  refine ⟨fun g => ⟨rfl, rfl⟩, ⟨by decide, by decide⟩, ?_, ?_⟩
  · intro st2 expanded maxS2 hst2
    subst hst2
    rfl
  · intro st2 expanded maxS2 hexp hmax
    cases st2 with
    | cons y ys =>
      rw [selection_prioritized]
      simp
    | nil =>
      rw [selection_prioritized]
      simp only [List.isEmpty_nil, if_pos]
      cases expanded with
      | nil => exact absurd rfl hexp
      | cons e es =>
        cases maxS2 with
        | zero => omega
        | succ k =>
          simp [List.take_succ_cons]

/-- Witness for Claim C9's theorem at concrete inputs. -/
theorem selector_oracle_degradation_witness :
    stage1_select false "50\ta.py" = [] ∧ stage2_select true "" = [] ∧
    selection_prioritized [] ["a"] 5 = [(50, "a")] ∧
    selection_prioritized [] ["a"] 5 ≠ [] := by
  have h := selector_oracle_degradation
  refine ⟨(h.1 "50\ta.py").1, h.2.1.2, ?_, h.2.2.2 [] ["a"] 5 (by decide) (by decide)⟩
  rw [h.2.2.1 [] ["a"] 5 rfl]
  decide

theorem dlookup_dinsert {α : Type} (k : String) (v : α) (k2 : String) :
    ∀ d : List (String × α),
    dlookup (dinsert k v d) k2 = if k2 = k then some v else dlookup d k2 := by
  intro d
  induction d with
  | nil =>
    rw [dinsert]
    by_cases h : k2 = k
    · subst h
      simp [dlookup]
    · have hk : ¬ (k = k2) := fun hh => h hh.symm
      simp [dlookup, h, hk]
  | cons y ys ih =>
    obtain ⟨k3, v3⟩ := y
    by_cases h3 : k3 = k
    · rw [dinsert, if_pos h3]
      by_cases h : k2 = k
      · subst h
        have hk : k3 = k2 := h3
        simp [dlookup, hk]
      · have hk : ¬ (k3 = k2) := fun hh => h (hh ▸ h3).symm.symm
        have hk2 : ¬ (k3 = k2) := fun hh => h (by rw [← hh, h3])
        simp [dlookup, h, hk2]
    · rw [dinsert, if_neg h3]
      by_cases h : k2 = k3
      · have hknot : ¬ (k2 = k) := fun hh => h3 (by rw [← h, hh])
        simp [dlookup, h.symm, hknot]
      · have hk : ¬ (k3 = k2) := fun hh => h hh.symm
        have hl : dlookup ((k3, v3) :: dinsert k v ys) k2 = dlookup (dinsert k v ys) k2 := by
          simp [dlookup, hk]
        have hr : dlookup ((k3, v3) :: ys) k2 = dlookup ys k2 := by
          simp [dlookup, hk]
        rw [hl, hr, ih]

theorem dlookup_foldl_dinsert (sr : List (ℤ × String)) :
    ∀ (d : List (String × ℤ)) (r : String),
    dlookup (sr.foldl (fun d x => dinsert x.2 x.1 d) d) r =
      ((sr.reverse.find? (fun x => x.2 = r)).map Prod.fst).or (dlookup d r) := by
  induction sr with
  | nil =>
    intro d r
    simp
  | cons x rest ih =>
    intro d r
    rw [List.foldl_cons, ih, List.reverse_cons, List.find?_append]
    by_cases h : x.2 = r
    · have hfind : List.find? (fun y => decide (y.2 = r)) [x] = some x := by
        simp [List.find?, h]
      rw [hfind]
      rw [dlookup_dinsert]
      rw [if_pos h.symm]
      cases hrev : List.find? (fun y => decide (y.2 = r)) rest.reverse with
      | none => simp [Option.or]
      | some z => simp [Option.or]
    · have hfind : List.find? (fun y => decide (y.2 = r)) [x] = none := by
        simp [List.find?, h]
      rw [hfind]
      rw [dlookup_dinsert]
      have hne : ¬ (r = x.2) := fun hh => h hh.symm
      rw [if_neg hne]
      cases hrev : List.find? (fun y => decide (y.2 = r)) rest.reverse with
      | none => simp [Option.or]
      | some z => simp [Option.or]

/-- The `merged` dict comprehension keeps, for every path, the score of its
LAST occurrence in the ranked list. -/
theorem fb_origDict_lookup (sr : List (ℤ × String)) (r : String) :
    dlookup (fb_origDict sr) r = (sr.reverse.find? (fun x => x.2 = r)).map Prod.fst := by
  rw [fb_origDict, dlookup_foldl_dinsert]
  cases h : (sr.reverse.find? (fun x => x.2 = r)).map Prod.fst with
  | none => simp [Option.or, dlookup]
  | some z => simp [Option.or]

theorem dlookup_eq_none_iff {α : Type} (d : List (String × α)) (k : String) :
    dlookup d k = none ↔ k ∉ d.map Prod.fst := by
  rw [dlookup, Option.map_eq_none', List.find?_eq_none]
  constructor
  · intro h hk
    rw [List.mem_map] at hk
    obtain ⟨x, hx, he⟩ := hk
    exact h x hx (by simp [he])
  · intro h x hx
    simp only [decide_eq_true_eq]
    intro he
    exact h (List.mem_map.2 ⟨x, hx, he⟩)

theorem dinsert_keys {α : Type} (k : String) (v : α) :
    ∀ d : List (String × α),
    (dinsert k v d).map Prod.fst =
      if k ∈ d.map Prod.fst then d.map Prod.fst else d.map Prod.fst ++ [k] := by
  intro d
  induction d with
  | nil => simp [dinsert]
  | cons y ys ih =>
    obtain ⟨k3, v3⟩ := y
    by_cases h3 : k3 = k
    · subst h3
      rw [dinsert, if_pos rfl]
      simp
    · rw [dinsert, if_neg h3]
      have hmem : k ∈ ((k3, v3) :: ys).map Prod.fst ↔ k ∈ ys.map Prod.fst := by
        simp only [List.map_cons, List.mem_cons]
        constructor
        · intro hh
          rcases hh with hh | hh
          · exact absurd hh.symm h3
          · exact hh
        · intro hh
          exact Or.inr hh
      by_cases hk : k ∈ ys.map Prod.fst
      · rw [if_pos (hmem.2 hk)]
        simp only [List.map_cons, ih, if_pos hk]
      · rw [if_neg (fun hh => hk (hmem.1 hh))]
        simp only [List.map_cons, ih, if_neg hk, List.cons_append]

theorem dinsert_keys_nodup {α : Type} (k : String) (v : α) (d : List (String × α))
    (hnd : (d.map Prod.fst).Nodup) : ((dinsert k v d).map Prod.fst).Nodup := by
  rw [dinsert_keys]
  by_cases hk : k ∈ d.map Prod.fst
  · rw [if_pos hk]
    exact hnd
  · rw [if_neg hk]
    rw [List.nodup_append]
    exact ⟨hnd, List.nodup_singleton k, fun a ha hb => hk (by
      rw [List.mem_singleton] at hb
      rw [← hb]
      exact ha)⟩

theorem fb_origDict_keys_nodup (sr : List (ℤ × String)) :
    ((fb_origDict sr).map Prod.fst).Nodup := by
  rw [fb_origDict]
  have h : ∀ (l : List (ℤ × String)) (d : List (String × ℤ)),
      (d.map Prod.fst).Nodup →
      ((l.foldl (fun d x => dinsert x.2 x.1 d) d).map Prod.fst).Nodup := by
    intro l
    induction l with
    | nil =>
      intro d hd
      exact hd
    | cons x rest ih =>
      intro d hd
      rw [List.foldl_cons]
      exact ih _ (dinsert_keys_nodup _ _ _ hd)
  exact h sr [] (by simp)

theorem fb_depDict_keys_nodup (refs : String → List String) (sr : List (ℤ × String))
    (m : List (String × FileInfo)) : ((fb_depDict refs sr m).map Prod.fst).Nodup := by
  rw [fb_depDict]
  have hgen : ∀ (seeds : List String) (d : List (String × ℤ)),
      (d.map Prod.fst).Nodup →
      ((seeds.foldl (fun d s =>
        (best_effort_resolve_refs_to_paths (refs (((dlookup m s).bind FileInfo.content).getD ""))
            (m.map Prod.fst)).foldl (fun d2 p =>
          dinsert p (max (max ((dlookup d2 p).getD 0) 1) (fb_basePr sr s - 5)) d2) d) d).map
          Prod.fst).Nodup := by
    intro seeds
    induction seeds with
    | nil =>
      intro d hd
      exact hd
    | cons s rest ih =>
      intro d hd
      rw [List.foldl_cons]
      refine ih _ ?_
      have hinner : ∀ (paths : List String) (d2 : List (String × ℤ)),
          (d2.map Prod.fst).Nodup →
          ((paths.foldl (fun d2 p =>
            dinsert p (max (max ((dlookup d2 p).getD 0) 1) (fb_basePr sr s - 5)) d2) d2).map
            Prod.fst).Nodup := by
        intro paths
        induction paths with
        | nil =>
          intro d2 hd2
          exact hd2
        | cons p prest ihp =>
          intro d2 hd2
          rw [List.foldl_cons]
          exact ihp _ (dinsert_keys_nodup _ _ _ hd2)
      exact hinner _ d hd
  exact hgen _ [] (by simp)

theorem mem_iff_dlookup {α : Type} :
    ∀ (d : List (String × α)), (d.map Prod.fst).Nodup →
    ∀ (k : String) (v : α), (k, v) ∈ d ↔ dlookup d k = some v := by
  intro d
  induction d with
  | nil =>
    intro _ k v
    simp [dlookup]
  | cons y ys ih =>
    intro hnd k v
    obtain ⟨k3, v3⟩ := y
    rw [List.map_cons, List.nodup_cons] at hnd
    by_cases h : k3 = k
    · subst h
      have hlook : dlookup ((k3, v3) :: ys) k3 = some v3 := by
        simp [dlookup]
      rw [hlook]
      constructor
      · intro hmem
        rcases List.mem_cons.1 hmem with h1 | h1
        · have : v = v3 := (Prod.mk.injEq .. ▸ h1).2
          rw [this]
        · exact absurd (List.mem_map.2 ⟨(k3, v), h1, rfl⟩) hnd.1
      · intro he
        have : v3 = v := Option.some.inj he
        subst this
        exact List.mem_cons_self _ _
    · have hlook : dlookup ((k3, v3) :: ys) k = dlookup ys k := by
        have hk : ¬ (k3 = k) := h
        simp [dlookup, hk]
      rw [hlook, ← ih hnd.2 k v]
      constructor
      · intro hmem
        rcases List.mem_cons.1 hmem with h1 | h1
        · exact absurd ((Prod.mk.injEq .. ▸ h1).1).symm h
        · exact h1
      · intro hmem
        exact List.mem_cons_of_mem _ hmem

/-- The dependency merge loop, characterized pointwise: since the dependency
dict has distinct keys, the entry for a path is written exactly once, as the
max of the pre-existing score (0 when absent) and the dependency score. -/
theorem dlookup_merge_fold :
    ∀ (dd : List (String × ℤ)), (dd.map Prod.fst).Nodup →
    ∀ (base : List (String × ℤ)) (r : String),
    dlookup (dd.foldl (fun d x => dinsert x.1 (max ((dlookup d x.1).getD 0) x.2) d) base) r =
      match dlookup dd r with
      | some sc => some (max ((dlookup base r).getD 0) sc)
      | none => dlookup base r := by
  intro dd
  induction dd with
  | nil =>
    intro _ base r
    simp [dlookup]
  | cons x rest ih =>
    intro hnd base r
    obtain ⟨p, sc⟩ := x
    rw [List.map_cons, List.nodup_cons] at hnd
    rw [List.foldl_cons, ih hnd.2]
    by_cases h : p = r
    · subst h
      have hrest : dlookup rest p = none :=
        (dlookup_eq_none_iff rest p).2 hnd.1
      rw [hrest]
      have hhead : dlookup ((p, sc) :: rest) p = some sc := by
        simp [dlookup]
      rw [hhead, dlookup_dinsert, if_pos rfl]
    · have hne : ¬ (r = p) := fun hh => h hh.symm
      have hhead : dlookup ((p, sc) :: rest) r = dlookup rest r := by
        have hk : ¬ (p = r) := h
        simp [dlookup, hk]
      rw [hhead, dlookup_dinsert, if_neg hne]

/-- The merged dict of the fallback: a path's final score is its last
original score raised by the dependency score (absent components behaving as
described by the source's `get(p, 0)` default). -/
theorem fb_merged_lookup (refs : String → List String) (sr : List (ℤ × String))
    (m : List (String × FileInfo)) (r : String) :
    dlookup (fb_merged refs sr m) r =
      match dlookup (fb_depDict refs sr m) r with
      | some sc => some (max ((dlookup (fb_origDict sr) r).getD 0) sc)
      | none => dlookup (fb_origDict sr) r := by
  rw [fb_merged]
  exact dlookup_merge_fold (fb_depDict refs sr m) (fb_depDict_keys_nodup refs sr m)
    (fb_origDict sr) r

theorem inner_fold_lookup (sr : List (ℤ × String)) (s : String) :
    ∀ (paths : List String) (d : List (String × ℤ)) (p : String),
    dlookup (paths.foldl (fun d2 q =>
      dinsert q (max (max ((dlookup d2 q).getD 0) 1) (fb_basePr sr s - 5)) d2) d) p =
      if p ∈ paths then some (max (max ((dlookup d p).getD 0) 1) (fb_basePr sr s - 5))
      else dlookup d p := by
  intro paths
  induction paths with
  | nil =>
    intro d p
    simp
  | cons q rest ih =>
    intro d p
    rw [List.foldl_cons, ih]
    by_cases hq : p = q
    · subst hq
      by_cases hrest : p ∈ rest
      · rw [if_pos hrest, if_pos (List.mem_cons_self _ _), dlookup_dinsert, if_pos rfl]
        have hval : ∀ g : ℤ, max (max ((max (max g 1) (fb_basePr sr s - 5))) 1)
            (fb_basePr sr s - 5) = max (max g 1) (fb_basePr sr s - 5) := by
          intro g
          omega
        rw [Option.getD_some]
        rw [hval]
      · rw [if_neg hrest, if_pos (List.mem_cons_self _ _), dlookup_dinsert, if_pos rfl]
    · have hmem : p ∈ q :: rest ↔ p ∈ rest := by
        rw [List.mem_cons]
        constructor
        · intro hh
          rcases hh with hh | hh
          · exact absurd hh hq
          · exact hh
        · exact Or.inr
      rw [dlookup_dinsert, if_neg hq]
      by_cases hrest : p ∈ rest
      · rw [if_pos hrest, if_pos (hmem.2 hrest)]
      · rw [if_neg hrest, if_neg (fun hh => hrest (hmem.1 hh))]

theorem depDict_fold_lookup (refs : String → List String) (sr : List (ℤ × String))
    (m : List (String × FileInfo)) :
    ∀ (seeds : List String) (d : List (String × ℤ)) (p : String),
    dlookup (seeds.foldl (fun d s =>
      (best_effort_resolve_refs_to_paths (refs (((dlookup m s).bind FileInfo.content).getD ""))
          (m.map Prod.fst)).foldl (fun d2 q =>
        dinsert q (max (max ((dlookup d2 q).getD 0) 1) (fb_basePr sr s - 5)) d2) d) d) p =
      (seeds.filterMap (fun s =>
        if p ∈ best_effort_resolve_refs_to_paths
            (refs (((dlookup m s).bind FileInfo.content).getD "")) (m.map Prod.fst)
        then some (max 1 (fb_basePr sr s - 5)) else none)).foldl
        (fun o a => some (max (o.getD a) a)) (dlookup d p) := by
  intro seeds
  induction seeds with
  | nil =>
    intro d p
    simp
  | cons s rest ih =>
    intro d p
    rw [List.foldl_cons, ih, List.filterMap_cons]
    by_cases hmem : p ∈ best_effort_resolve_refs_to_paths
        (refs (((dlookup m s).bind FileInfo.content).getD "")) (m.map Prod.fst)
    · rw [if_pos hmem, List.foldl_cons]
      have h1 : dlookup ((best_effort_resolve_refs_to_paths
          (refs (((dlookup m s).bind FileInfo.content).getD "")) (m.map Prod.fst)).foldl
          (fun d2 q => dinsert q (max (max ((dlookup d2 q).getD 0) 1) (fb_basePr sr s - 5)) d2)
          d) p = some (max (max ((dlookup d p).getD 0) 1) (fb_basePr sr s - 5)) := by
        rw [inner_fold_lookup, if_pos hmem]
      rw [h1]
      have h2 : some (max (max ((dlookup d p).getD 0) 1) (fb_basePr sr s - 5)) =
          some (max ((dlookup d p).getD (max 1 (fb_basePr sr s - 5)))
            (max 1 (fb_basePr sr s - 5))) := by
        cases hd : dlookup d p with
        | none => simp
        | some g =>
          simp
          omega
      rw [h2]
    · rw [if_neg hmem]
      have h1 : dlookup ((best_effort_resolve_refs_to_paths
          (refs (((dlookup m s).bind FileInfo.content).getD "")) (m.map Prod.fst)).foldl
          (fun d2 q => dinsert q (max (max ((dlookup d2 q).getD 0) 1) (fb_basePr sr s - 5)) d2)
          d) p = dlookup d p := by
        rw [inner_fold_lookup, if_neg hmem]
      rw [h1]

/-- The dependency dict maps each path to the max of its per-seed
contributions `max 1 (seed_priority - 5)`, and is absent exactly when no seed
resolved the path. -/
theorem fb_depDict_lookup (refs : String → List String) (sr : List (ℤ × String))
    (m : List (String × FileInfo)) (p : String) :
    dlookup (fb_depDict refs sr m) p = listMax? (fb_depContribs refs sr m p) := by
  rw [fb_depDict, fb_depContribs, listMax?, depDict_fold_lookup]
  rfl

theorem length_filter_partition {α : Type} (p : α → Bool) :
    ∀ l : List α, (l.filter p).length + (l.filter (fun a => !(p a))).length = l.length := by
  intro l
  induction l with
  | nil => simp
  | cons a t ih =>
    by_cases h : p a
    · simp [List.filter_cons, h]
      omega
    · simp [List.filter_cons, h]
      omega

theorem flatMap_congr_mem {α β : Type} (f g : α → List β) :
    ∀ l : List α, (∀ a ∈ l, f a = g a) → l.flatMap f = l.flatMap g := by
  intro l
  induction l with
  | nil =>
    intro _
    rfl
  | cons a t ih =>
    intro h
    rw [List.flatMap_cons, List.flatMap_cons, h a (List.mem_cons_self _ _),
      ih (fun b hb => h b (List.mem_cons_of_mem _ hb))]

theorem flatMap_length_congr {α β γ : Type} (f : α → List β) (g : α → List γ) :
    ∀ l : List α, (∀ a ∈ l, (f a).length = (g a).length) →
      (l.flatMap f).length = (l.flatMap g).length := by
  intro l
  induction l with
  | nil =>
    intro _
    rfl
  | cons a t ih =>
    intro h
    rw [List.flatMap_cons, List.flatMap_cons, List.length_append, List.length_append,
      h a (List.mem_cons_self _ _), ih (fun b hb => h b (List.mem_cons_of_mem _ hb))]

theorem flatMap_filter_length :
    ∀ (keys : List ℤ) (l : List (ℤ × String)), keys.Nodup → (∀ x ∈ l, x.1 ∈ keys) →
    (keys.flatMap (fun pr => l.filter (fun x => decide (x.1 = pr)))).length = l.length := by
  intro keys
  induction keys with
  | nil =>
    intro l _ hcov
    have hl : l = [] := by
      cases l with
      | nil => rfl
      | cons x xs => exact absurd (hcov x (List.mem_cons_self _ _)) (List.not_mem_nil _)
    simp [hl]
  | cons k ks ih =>
    intro l hnd hcov
    rw [List.nodup_cons] at hnd
    rw [List.flatMap_cons, List.length_append]
    have hblocks : ks.flatMap (fun pr => l.filter (fun x => decide (x.1 = pr))) =
        ks.flatMap (fun pr => (l.filter (fun x => !(decide (x.1 = k)))).filter
          (fun x => decide (x.1 = pr))) := by
      apply flatMap_congr_mem
      intro pr hpr
      rw [List.filter_filter]
      apply List.filter_congr
      intro x _
      have hprk : ¬ (pr = k) := fun hh => hnd.1 (hh ▸ hpr)
      by_cases he : x.1 = pr
      · have hk : ¬ (x.1 = k) := by
          intro hh
          exact hprk (by rw [← he, hh])
        simp [he, hk, hprk]
      · simp [he]
    rw [hblocks, ih _ hnd.2 (fun x hx => by
      have h1 := List.of_mem_filter hx
      have h2 := List.mem_of_mem_filter hx
      have h3 := hcov x h2
      rcases List.mem_cons.1 h3 with h4 | h4
      · rw [Bool.not_eq_eq_eq_not] at h1
        simp at h1
        exact absurd h4 h1
      · exact h4)]
    exact length_filter_partition (fun x => decide (x.1 = k)) l

theorem tierRels_eq_filter (prioritized : List (ℤ × String)) (m : List (String × FileInfo))
    (pr : ℤ) :
    tierRels prioritized m pr =
      ((prioritized.filter (fun x => hasContent m x.2)).filter
        (fun x => decide (x.1 = pr))).map Prod.snd := by
  rw [tierRels, List.filter_filter]

/-- The packer's processing order has exactly one slot per listed occurrence
of a candidate that passes the content guard — duplicated paths are processed
once per listing, not merged. -/
theorem spec_packOrder_length (prioritized : List (ℤ × String))
    (m : List (String × FileInfo)) :
    (spec_packOrder prioritized m).length =
      (prioritized.filter (fun x => hasContent m x.2)).length := by
  rw [spec_packOrder]
  have h1 : ((packKeys prioritized m).flatMap
      (fun pr => (sortBy (lenLe m) (tierRels prioritized m pr)).map (fun r => (pr, r)))).length =
      ((packKeys prioritized m).flatMap
        (fun pr => (prioritized.filter (fun x => hasContent m x.2)).filter
          (fun x => decide (x.1 = pr)))).length := by
    apply flatMap_length_congr
    intro pr _
    rw [List.length_map, (sortBy_perm (lenLe m) (tierRels prioritized m pr)).length_eq,
      tierRels_eq_filter, List.length_map]
  rw [h1]
  apply flatMap_filter_length
  · rw [packKeys]
    exact (sortBy_perm _ _).nodup_iff.2 (List.nodup_dedup _)
  · intro x hx
    rw [packKeys, mem_sortBy, List.mem_dedup]
    exact List.mem_map.2 ⟨x, hx, rfl⟩

set_option maxRecDepth 1000000 in
/-- Claim C5 counterexample: a path listed at two priorities.  The packer
does NOT consider it once at its maximum priority — it processes (and here
accepts) the path once per tier, at priorities 80 AND 60; and the fallback's
merged ranking does NOT resolve the path to the maximum 80 — the dict
comprehension keeps the LAST (lowest) listed score 60. -/
theorem duplicate_path_counterexample :
    budgeted_pack_b tokFB [(80, "a"), (60, "a")] cex5_m 1000000 "" "" =
      [(80, "a"), (60, "a")] ∧
    fallback_mode_b (fun _ => []) [(80, "a"), (60, "a")] cex5_m = [(60, "a")] := by
  constructor <;> decide

/-- Claim C5 (amended): when several candidates name the same path, the
packer considers the path once per listed occurrence (one processing slot per
candidate entry passing the content guard) rather than once at its maximum
priority; the fallback's merge initializes each path to the score of its
LAST occurrence in the candidate list, and only the dependency merge then
raises it with a max (`max(existing-or-0, dependency score)`). -/
theorem duplicate_path_handling :
    (∀ (prioritized : List (ℤ × String)) (m : List (String × FileInfo)),
      (spec_packOrder prioritized m).length =
        (prioritized.filter (fun x => hasContent m x.2)).length) ∧
    (∀ (sr : List (ℤ × String)) (r : String),
      dlookup (fb_origDict sr) r = (sr.reverse.find? (fun x => x.2 = r)).map Prod.fst) ∧
    (∀ (refs : String → List String) (sr : List (ℤ × String))
      (m : List (String × FileInfo)) (r : String),
      dlookup (fb_merged refs sr m) r =
        match dlookup (fb_depDict refs sr m) r with
        | some sc => some (max ((dlookup (fb_origDict sr) r).getD 0) sc)
        | none => dlookup (fb_origDict sr) r) :=
  ⟨spec_packOrder_length, fb_origDict_lookup, fb_merged_lookup⟩

theorem rankLe_total : ∀ x y : ℤ × String, rankLe x y || rankLe y x := by
  intro x y
  rcases lt_trichotomy x.1 y.1 with h | h | h
  · have h2 : rankLe y x = true := by
      simp [rankLe, h]
    simp [h2]
  · rcases le_total x.2 y.2 with h2 | h2
    · have h3 : rankLe x y = true := by
        simp [rankLe, h, h2]
      simp [h3]
    · have h3 : rankLe y x = true := by
        simp [rankLe, h.symm, h2]
      simp [h3]
  · have h2 : rankLe x y = true := by
      simp [rankLe, h]
    simp [h2]

theorem rankLe_trans : ∀ x y z : ℤ × String,
    rankLe x y = true → rankLe y z = true → rankLe x z = true := by
  intro x y z hxy hyz
  simp only [rankLe, Bool.or_eq_true, Bool.and_eq_true, decide_eq_true_eq] at hxy hyz ⊢
  rcases hxy with h1 | ⟨h1, h1b⟩
  · rcases hyz with h2 | ⟨h2, h2b⟩
    · exact Or.inl (lt_trans h2 h1)
    · exact Or.inl (h2 ▸ h1)
  · rcases hyz with h2 | ⟨h2, h2b⟩
    · exact Or.inl (h1 ▸ h2)
    · exact Or.inr ⟨h1.trans h2, le_trans h1b h2b⟩

theorem fb_merged_keys_nodup (refs : String → List String) (sr : List (ℤ × String))
    (m : List (String × FileInfo)) : ((fb_merged refs sr m).map Prod.fst).Nodup := by
  rw [fb_merged]
  have h : ∀ (dd base : List (String × ℤ)), (base.map Prod.fst).Nodup →
      ((dd.foldl (fun d x => dinsert x.1 (max ((dlookup d x.1).getD 0) x.2) d) base).map
        Prod.fst).Nodup := by
    intro dd
    induction dd with
    | nil =>
      intro base hb
      exact hb
    | cons x rest ih =>
      intro base hb
      rw [List.foldl_cons]
      exact ih _ (dinsert_keys_nodup _ _ _ hb)
  exact h _ _ (fb_origDict_keys_nodup sr)

theorem find?_key_of_mem_nodup :
    ∀ (sr : List (ℤ × String)), (sr.map Prod.snd).Nodup →
    ∀ (p : ℤ) (r : String), (p, r) ∈ sr →
    sr.find? (fun x => x.2 = r) = some (p, r) := by
  intro sr
  induction sr with
  | nil =>
    intro _ p r h
    exact absurd h (List.not_mem_nil _)
  | cons y ys ih =>
    intro hnd p r hmem
    rw [List.map_cons, List.nodup_cons] at hnd
    rcases List.mem_cons.1 hmem with h1 | h1
    · subst h1
      simp [List.find?]
    · have hne : ¬ (y.2 = r) := by
        intro hh
        exact hnd.1 (hh ▸ List.mem_map.2 ⟨(p, r), h1, rfl⟩)
      have hstep : List.find? (fun x => decide (x.2 = r)) (y :: ys) =
          List.find? (fun x => decide (x.2 = r)) ys := by
        simp [List.find?, hne]
      rw [hstep]
      exact ih hnd.2 p r h1

/-- Claim C8 (confirmed): for a deduplicated ranked candidate list, the
fallback's output is sorted by score descending with ties broken by path
ascending; its entries are exactly the merged dict; an original candidate's
final score is its original score raised by the max dependency contribution
when one exists; a dependency-only path enters at its (nonnegative-clamped)
max contribution; and every contribution is `max 1 (seed_priority - 5)` for
some seed. -/
theorem fallback_expander_scoring (refs : String → List String)
    (sr : List (ℤ × String)) (m : List (String × FileInfo))
    (hnd : (sr.map Prod.snd).Nodup) :
    List.Pairwise (fun x y => rankLe x y = true) (fallback_mode_b refs sr m) ∧
    (∀ sc r, (sc, r) ∈ fallback_mode_b refs sr m ↔
      dlookup (fb_merged refs sr m) r = some sc) ∧
    (∀ p r, (p, r) ∈ sr → dlookup (fb_merged refs sr m) r =
      some (match listMax? (fb_depContribs refs sr m r) with
            | none => p
            | some d => max p d)) ∧
    (∀ r, r ∉ sr.map Prod.snd →
      dlookup (fb_merged refs sr m) r =
        (listMax? (fb_depContribs refs sr m r)).map (fun d => max 0 d)) ∧
    (∀ r v, v ∈ fb_depContribs refs sr m r →
      ∃ s, v = max 1 (fb_basePr sr s - 5)) := by
  have horig : ∀ p r, (p, r) ∈ sr → dlookup (fb_origDict sr) r = some p := by
    intro p r hmem
    rw [fb_origDict_lookup]
    have hndrev : (sr.reverse.map Prod.snd).Nodup := by
      rw [List.map_reverse]
      exact List.nodup_reverse.2 hnd
    rw [find?_key_of_mem_nodup sr.reverse hndrev p r (List.mem_reverse.2 hmem)]
    rfl
  refine ⟨?_, ?_, ?_, ?_, ?_⟩
  · exact sortBy_sorted rankLe rankLe_total rankLe_trans _
  · intro sc r
    rw [fallback_mode_b, mem_sortBy]
    constructor
    · intro hmem
      obtain ⟨x, hx, he⟩ := List.mem_map.1 hmem
      have h1 : x.2 = sc := congrArg Prod.fst he
      have h2 : x.1 = r := congrArg Prod.snd he
      have h3 : (r, sc) ∈ fb_merged refs sr m := by
        rw [← h1, ← h2]
        exact hx
      exact (mem_iff_dlookup _ (fb_merged_keys_nodup refs sr m) r sc).1 h3
    · intro hl
      have h3 : (r, sc) ∈ fb_merged refs sr m :=
        (mem_iff_dlookup _ (fb_merged_keys_nodup refs sr m) r sc).2 hl
      exact List.mem_map.2 ⟨(r, sc), h3, rfl⟩
  · intro p r hmem
    rw [fb_merged_lookup, fb_depDict_lookup, horig p r hmem]
    cases listMax? (fb_depContribs refs sr m r) with
    | none => rfl
    | some d => rfl
  · intro r hr
    have horig2 : dlookup (fb_origDict sr) r = none := by
      rw [fb_origDict_lookup]
      have hfind : sr.reverse.find? (fun x => x.2 = r) = none := by
        rw [List.find?_eq_none]
        intro x hx
        simp only [decide_eq_true_eq]
        intro he
        exact hr (List.mem_map.2 ⟨x, List.mem_reverse.1 hx, he⟩)
      rw [hfind]
      rfl
    rw [fb_merged_lookup, fb_depDict_lookup, horig2]
    cases listMax? (fb_depContribs refs sr m r) with
    | none => rfl
    | some d => rfl
  · intro r v hv
    obtain ⟨s, _, he⟩ := List.mem_filterMap.1 hv
    by_cases hin : r ∈ best_effort_resolve_refs_to_paths
        (refs (((dlookup m s).bind FileInfo.content).getD "")) (m.map Prod.fst)
    · rw [if_pos hin] at he
      exact ⟨s, (Option.some.inj he).symm⟩
    · rw [if_neg hin] at he
      cases he

set_option maxRecDepth 1000000 in
/-- Witness for Claim C8's theorem: the dependency `lib/b.py`, resolved from
seed `a` of priority 90, is raised from its original 70 to
`max 70 (max 1 (90 - 5)) = 85`. -/
theorem fallback_expander_scoring_witness :
    ((cex8_sr.map Prod.snd).Nodup) ∧
    dlookup (fb_merged cex8_refs cex8_sr cex8_m) "lib/b.py" = some 85 := by
  refine ⟨by decide, ?_⟩
  rw [(fallback_expander_scoring cex8_refs cex8_sr cex8_m (by decide)).2.2.1 70 "lib/b.py"
    (by decide)]
  decide
